import Mathlib

/-!
Verification of the XKC codec (`XLib::XKC`, file `xkc.h`) against its
natural-language specification.

The development shallowly embeds the codec for the default alphabet type
`byte_t` (1-byte symbols): symbols are `Nat` values (< 256 where the C++
type forces it), tree node values live in the widened signed type
`value_t` and are modelled as `Int` with the sentinel `INVALID = -1`,
byte buffers are `List Nat`, and the `std::bitset` bit paths are `Nat`
bitsets accessed through `Nat.testBit`.
-/

set_option autoImplicit false
set_option maxRecDepth 4096

namespace XKC

/-! ### Bitset operations

`bit_path_t` is `std::bitset`; `bs[i] = b` is modelled on a `Nat` bitset
by `assignBit`. -/

/-- Clear bit `i` of the bitset `bp`. -/
def clearBit (bp i : Nat) : Nat := if bp.testBit i then bp ^^^ (1 <<< i) else bp

/-- Assign bit `i` of the bitset `bp` to `b` (the C++ `bs[i] = b`). -/
def assignBit (bp i : Nat) (b : Bool) : Nat :=
  if b then bp ||| (1 <<< i) else clearBit bp i

theorem testBit_clearBit (bp i j : Nat) :
    (clearBit bp i).testBit j = if j = i then false else bp.testBit j := by
  unfold clearBit
  by_cases hi : bp.testBit i
  · simp only [hi, if_true, Nat.testBit_xor, Nat.shiftLeft_eq, one_mul,
      Nat.testBit_two_pow]
    by_cases hji : j = i
    · subst hji; simp [hi]
    · simp [hji, Ne.symm hji]
  · simp only [hi, if_false]
    by_cases hji : j = i
    · subst hji; simp [hi]
    · simp [hji]

theorem testBit_assignBit (bp i j : Nat) (b : Bool) :
    (assignBit bp i b).testBit j = if j = i then b else bp.testBit j := by
  unfold assignBit
  cases b with
  | false => simp [testBit_clearBit]
  | true =>
    simp only [if_true, Nat.testBit_or, Nat.shiftLeft_eq, one_mul,
      Nat.testBit_two_pow]
    by_cases hji : j = i
    · subst hji; simp
    · simp [hji, Ne.symm hji]

/-! ### The binary tree

`XKC<byte_t>::BinaryTree`.  A `shared_node` that is `nullptr` is `Node.nil`;
an allocated node carries its `value_t` value and the two child pointers.
The `root`/`parent` back-pointers of the C++ nodes are not part of the
functional state: `Node.depth` (a walk up the parent chain) is rendered by
passing the absolute depth downward in each recursive traversal, exactly
as the source's recursions do via `parent->depth()`. -/

inductive Node where
  | nil : Node
  | node (value : Int) (left : Node) (right : Node) : Node
deriving DecidableEq

/-- `Node::Value::INVALID` (`value_t` is signed and widened, so `-1` never
collides with an `alphabet_T` value). -/
def INVALID : Int := -1

/-- `Node::count_nodes`: number of strict descendants of a (non-null) node. -/
def Node.count_nodes : Node → Nat
  | .nil => 0
  | .node _ l r =>
      (if l = .nil then 0 else l.count_nodes + 1)
      + (if r = .nil then 0 else r.count_nodes + 1)

/-- `Node::height`: maximum edge count from a (non-null) node down to a leaf. -/
def Node.height : Node → Nat
  | .nil => 0
  | .node _ l r =>
      max (if l = .nil then 0 else l.height + 1)
          (if r = .nil then 0 else r.height + 1)

/-- Total number of allocated nodes in a subtree (the node itself included).
Not a source method; used to phrase `count_nodes` facts. -/
def Node.size : Node → Nat
  | .nil => 0
  | .node _ l r => 1 + l.size + r.size

/-- `BinaryTree::insert(shared_node parent, alphabet_T value)`: fill the left
slot, else the right slot, else recurse into the child with the smaller
`count_nodes` (ties to the left). -/
def Node.insertAt : Node → Int → Node
  | .nil, _ => .nil
  | .node x l r, v =>
      if l = .nil then .node x (.node v .nil .nil) r
      else if r = .nil then .node x l (.node v .nil .nil)
      else if l.count_nodes ≤ r.count_nodes then .node x (l.insertAt v) r
      else .node x l (r.insertAt v)

/-- `BinaryTree`: the constructor allocates a root whose value is `INVALID`. -/
structure BinaryTree where
  root : Node
deriving DecidableEq

/-- `BinaryTree()`. -/
def BinaryTree.empty : BinaryTree := ⟨.node INVALID .nil .nil⟩

/-- `BinaryTree::insert(alphabet_T value)`: the first insertion claims the
root's value slot, later ones recurse from the root. -/
def BinaryTree.insert (t : BinaryTree) (v : Int) : BinaryTree :=
  match t.root with
  | .nil => t
  | .node x l r => if x = INVALID then ⟨.node v l r⟩ else ⟨(Node.node x l r).insertAt v⟩

/-- Tree obtained by inserting the values of `vs` in order into a fresh tree. -/
def buildTree (vs : List Int) : BinaryTree := vs.foldl BinaryTree.insert BinaryTree.empty

/-! ### Paths -/

/-- `PathInfo`: `bit_path` is the `std::bitset` (bit `i` = direction taken at
depth `i`, `false` = left), `depth` the number of edges from the root. -/
structure PathInfo where
  bit_path : Nat := 0
  depth : Nat := 0
deriving DecidableEq

/-- The left/right direction list of the first (preorder) node carrying `v`,
or `none` when `v` is absent.  This is the search order of
`BinaryTree::path_info`: try the node itself, then the left subtree, then
the right subtree. -/
def Node.findPath : Node → Int → Option (List Bool)
  | .nil, _ => none
  | .node x l r, v =>
      if x = v then some []
      else
        match l.findPath v with
        | some p => some (false :: p)
        | none =>
          match r.findPath v with
          | some p => some (true :: p)
          | none => none

/-- `BinaryTree::path_info(PathInfo&, shared_node, alphabet_T)`.  `d` is the
absolute depth of the visited node (the source recomputes it on entry as
`parent->depth()`).  The returned flag is the C++ return value; the state
threading mirrors the in-place bitset writes, including the `= 1` before
descending right and the resets to `0` on backtracking. -/
def Node.path_info : Node → Int → Nat → PathInfo → Bool × PathInfo
  | .nil, _, _, pi => (false, pi)
  | .node x l r, v, d, pi =>
      if x = v then (true, { pi with depth := d })
      else
        let resL := l.path_info v (d + 1) pi
        if resL.1 then
          (true, { resL.2 with bit_path := assignBit resL.2.bit_path d false })
        else
          let pi1 := { resL.2 with bit_path := assignBit resL.2.bit_path d true }
          let resR := r.path_info v (d + 1) pi1
          if resR.1 then
            (true, { resR.2 with bit_path := assignBit resR.2.bit_path d true })
          else
            (false, { resR.2 with bit_path := assignBit resR.2.bit_path d false })

/-- `BinaryTree::path_info(PathInfo&, alphabet_T)`: start at the root, whose
`depth()` is `0`. -/
def BinaryTree.path_info (t : BinaryTree) (v : Int) (pi : PathInfo) : Bool × PathInfo :=
  t.root.path_info v 0 pi

/-- The walk of `BinaryTree::find_value`: from node `n`, consume the path
bits at indices `i, i+1, ...` for `steps` levels (`true` goes right).
Following a null pointer is undefined behaviour in the source; the model
totalises it by staying at `nil`. -/
def Node.walkPath : Node → Nat → Nat → Nat → Node
  | n, _, _, 0 => n
  | .nil, _, _, _ + 1 => .nil
  | .node _ l r, bp, i, steps + 1 =>
      (if bp.testBit i then r else l).walkPath bp (i + 1) steps

/-- The `value` field read by `find_value` at the end of the walk (reading a
null node is the source's undefined behaviour, modelled as `INVALID`). -/
def Node.valueOf : Node → Int
  | .nil => INVALID
  | .node x _ _ => x

/-- `BinaryTree::find_value(PathInfoResult&)`: walk `depth` levels from the
root along `bit_path` and return the reached node's value. -/
def BinaryTree.find_value (t : BinaryTree) (pi : PathInfo) : Int :=
  (t.root.walkPath pi.bit_path 0 pi.depth).valueOf

/-! ### Run-length collapsing

`XKC::encode`, first loop: contiguous equal symbols become an `Occurrence`
whose `count` (a `byte_t`) is capped at 255. -/

/-- `Occurrence`: one run of `count` copies of `letter_value`.  The source
stores `count` in a `byte_t`; the collapser never produces a value above
255, so plain `Nat` is exact. -/
structure Occurrence where
  letter_value : Nat
  count : Nat
deriving DecidableEq

/-- Both collapser loops fused into one structural pass: a run of `cnt`
copies of `v` is open; the inner `for` extends it while the next symbol
equals `v` and `cnt` has not reached
`std::numeric_limits<byte_t>::max() = 255`, otherwise (`break`) the run is
pushed and the outer `while` opens a fresh run at the current symbol. -/
def collapseAux (v : Nat) (cnt : Nat) : List Nat → List Occurrence
  | [] => [⟨v, cnt⟩]
  | x :: xs =>
      if cnt = 255 then ⟨v, cnt⟩ :: collapseAux x 1 xs
      else if v ≠ x then ⟨v, cnt⟩ :: collapseAux x 1 xs
      else collapseAux v (cnt + 1) xs

/-- The run-length collapser of `encode` (its first two nested loops). -/
def collapseRuns : List Nat → List Occurrence
  | [] => []
  | x :: xs => collapseAux x 1 xs

/-! ### Alphabet construction -/

/-- `Letter`: a distinct symbol together with its accumulated frequency. -/
structure Letter where
  value : Nat
  freq : Nat
deriving DecidableEq

/-- Fold one occurrence into the table: `std::find_if` on the value, add the
count to an existing entry or append a fresh one. -/
def addOccurrence : List Letter → Occurrence → List Letter
  | [], o => [⟨o.letter_value, o.count⟩]
  | l :: ls, o =>
      if l.value = o.letter_value then ⟨l.value, l.freq + o.count⟩ :: ls
      else l :: addOccurrence ls o

/-- The frequency table in first-seen order. -/
def buildAlphabet (os : List Occurrence) : List Letter := os.foldl addOccurrence []

/-- One insertion step of an insertion sort with the source's comparator
`a.freq > b.freq`: `l` passes every entry whose frequency is at least its
own, so equal frequencies keep their first-seen order. -/
def insertLetter (l : Letter) : List Letter → List Letter
  | [] => [l]
  | x :: xs => if l.freq > x.freq then l :: x :: xs else x :: insertLetter l xs

/-- The `std::sort(alphabet.begin(), alphabet.end(), a.freq > b.freq)` call.
`std::sort` promises only a permutation that is sorted for the comparator
(`IsSortResult` below); the order of equal-frequency entries is
implementation-defined.  The embedding fixes one conforming
implementation, a stable insertion sort. -/
def sortLetters (ls : List Letter) : List Letter :=
  ls.foldl (fun acc l => insertLetter l acc) []

/-- The guarantee the C++ standard gives for the `std::sort` call in
`encode`: the output is a permutation of the input that is sorted for the
strict comparator `a.freq > b.freq` (no consecutive pair is in strictly
ascending frequency order).  Tie order is not constrained. -/
def IsSortResult (input output : List Letter) : Prop :=
  input.Perm output ∧ List.Chain' (fun a b => ¬ b.freq > a.freq) output

instance (input output : List Letter) : Decidable (IsSortResult input output) := by
  unfold IsSortResult; infer_instance

/-! ### Bit writer and encode -/

/-- Fuel-driven binary logarithm (structural, so that concrete encodings
reduce inside the kernel); agrees with `Nat.log2` whenever the fuel covers
the argument. -/
def log2Fuel : Nat → Nat → Nat
  | 0, _ => 0
  | fuel + 1, n => if n < 2 then 0 else log2Fuel fuel (n / 2) + 1

theorem log2Fuel_eq (fuel : Nat) : ∀ n : Nat, n ≤ fuel → log2Fuel fuel n = Nat.log2 n := by
  induction fuel with
  | zero =>
      intro n hn
      interval_cases n
      simp [log2Fuel, Nat.log2]
  | succ fuel ih =>
      intro n hn
      by_cases h2 : n < 2
      · rw [Nat.log2]
        simp [log2Fuel, h2, Nat.not_le_of_lt h2]
      · have hrec : n / 2 ≤ fuel := by omega
        rw [Nat.log2]
        simp only [log2Fuel, h2, if_false, ih (n / 2) hrec]
        simp [Nat.le_of_not_lt h2]

/-- Modelled from the spec: `BitsNeeded` lives in `bits.h`, which is not
part of the sources at hand.  Per the spec it returns the number of bits
needed to represent its argument (the header field is the bits needed to
encode any valid tree depth); representing the value 0 still occupies one
bit, so that a depth of 0 is written explicitly and decode can recover
it. -/
def BitsNeeded (n : Nat) : Nat := log2Fuel n n + 1

theorem BitsNeeded_eq (n : Nat) : BitsNeeded n = Nat.log2 n + 1 := by
  rw [BitsNeeded, log2Fuel_eq n n (le_refl n)]

/-- Writer state of `encode`: the bytes pushed so far, the byte being
assembled, the bit cursor inside it, and the total bit counter (`uint32_t`
in the source; kept exact here and reduced modulo `2 ^ 32` where the
source's width matters, i.e. when the counter is serialised). -/
structure WriterState where
  out : List Nat
  result_byte : Nat
  written_bits_on_result_byte : Nat
  written_bits : Nat
deriving DecidableEq

/-- The `check_bit` lambda: advance both counters and flush the working
byte once 8 bits are in it. -/
def check_bit (w : WriterState) : WriterState :=
  if w.written_bits_on_result_byte + 1 = 8 then
    ⟨w.out ++ [w.result_byte], 0, 0, w.written_bits + 1⟩
  else
    ⟨w.out, w.result_byte, w.written_bits_on_result_byte + 1, w.written_bits + 1⟩

/-- The `write_bit` lambda: set the bit at the cursor in the working byte. -/
def write_bit (w : WriterState) : WriterState :=
  { w with result_byte := w.result_byte ||| (1 <<< w.written_bits_on_result_byte) }

/-- One bit of the stream: `write_bit` when the bit is set, then `check_bit`
(the source calls them in exactly this pattern). -/
def putBit (w : WriterState) (b : Bool) : WriterState :=
  check_bit (if b then write_bit w else w)

/-- Emit a whole bit list. -/
def writeBits (w : WriterState) (bs : List Bool) : WriterState := bs.foldl putBit w

/-- The `method1` lambda: for one path, emit `max_depth_bits` depth bits
(LSB first, via `depth & (1 << depth_bit)`), then `depth` path bits
(`bit_path[i]` for `i < depth`). -/
def method1 (mdb : Nat) (pi : PathInfo) (w : WriterState) : WriterState :=
  let w1 := (List.range mdb).foldl (fun w i => putBit w (pi.depth.testBit i)) w
  (List.range pi.depth).foldl (fun w i => putBit w (pi.bit_path.testBit i)) w1

/-- The path the encoder computes for a symbol: a default-initialised
`PathInfo` updated in place by `binary_tree.path_info` (the boolean result
is discarded by the source). -/
def pathInfoFor (t : BinaryTree) (v : Nat) : PathInfo := (t.path_info (v : Int) {}).2

/-- Main emission loop of `encode`: for every occurrence, compute the path
once and write it `count` times. -/
def encodeBody (mdb : Nat) (t : BinaryTree) (occs : List Occurrence)
    (w : WriterState) : WriterState :=
  occs.foldl (fun w o =>
    let pi := pathInfoFor t o.letter_value
    (List.range o.count).foldl (fun w _ => method1 mdb pi w) w) w

/-- Flush of the final partial byte (`if (written_bits_on_result_byte > 0)`). -/
def flushedOut (w : WriterState) : List Nat :=
  w.out ++ (if 0 < w.written_bits_on_result_byte then [w.result_byte] else [])

/-- The four little-endian bytes of the `uint32_t` bit counter. -/
def toLE4 (n : Nat) : List Nat :=
  [n % 2 ^ 32 % 256, n % 2 ^ 32 / 256 % 256, n % 2 ^ 32 / 65536 % 256,
    n % 2 ^ 32 / 16777216 % 256]

/-- The `alphabet.size() - 1` header byte: `size_t` wrap-around (relevant
only for an empty alphabet, where it yields 255) followed by the `byte_t`
truncation of `push_back`. -/
def sizeByte (len : Nat) : Nat := (len + (2 ^ 64 - 1)) % 2 ^ 64 % 256

/-- `XKC<alphabet_T>::encode` on an already extracted symbol sequence (for
`byte_t` the symbols are the input bytes themselves).  Header, alphabet
entries (each truncated to one byte by `result.push_back(letter.value)`),
packed path bitstream, flush, and trailing bit counter. -/
def encodeSymbols (syms : List Nat) : List Nat :=
  let occs := collapseRuns syms
  let alphabet := sortLetters (buildAlphabet occs)
  let t := buildTree (alphabet.map (fun l => (l.value : Int)))
  let mdb := BitsNeeded t.root.height
  let w := encodeBody mdb t occs ⟨[], 0, 0, 0⟩
  [mdb % 256, sizeByte alphabet.length]
    ++ alphabet.map (fun l => l.value % 256)
    ++ flushedOut w
    ++ toLE4 w.written_bits

/-- `view_as<alphabet_T*>(data)` for a symbol width of `w` bytes: group the
byte buffer into `size / w` little-endian symbols (the machine is
little-endian per the spec's wire format). -/
def bytesToSymbols (w : Nat) (data : List Nat) : List Nat :=
  (List.range (data.length / w)).map (fun i =>
    (List.range w).foldr (fun j acc => acc * 256 + data.getD (w * i + j) 0 % 256) 0)

/-- `XKC<alphabet_T>::encode(data_t, size_t)` for symbol width `w`. -/
def encodeWidth (w : Nat) (data : List Nat) : List Nat :=
  encodeSymbols (bytesToSymbols w data)

/-- `XKC<byte_t>::encode(bytes_t)`: width-1 symbols are the bytes. -/
def encodeBytes (data : List Nat) : List Nat := encodeSymbols data

/-! ### Decode -/

/-- Reader state of `decode`'s bit loop. -/
structure ReaderState where
  read_bytes : Nat
  read_bits_on_result_byte : Nat
  bits_read : Nat
deriving DecidableEq

/-- The `read_bit` lambda: test the cursor bit of the current byte
(`data[read_bytes] & (1 << read_bits_on_result_byte)`), then advance,
stepping to the next byte after 8 bits.  Out-of-range reads are undefined
behaviour in the source and read as 0 here. -/
def read_bit (data : List Nat) (s : ReaderState) : Nat × ReaderState :=
  let v := if (data.getD s.read_bytes 0).testBit s.read_bits_on_result_byte then 1 else 0
  if s.read_bits_on_result_byte + 1 = 8 then
    (v, ⟨s.read_bytes + 1, 0, s.bits_read + 1⟩)
  else
    (v, ⟨s.read_bytes, s.read_bits_on_result_byte + 1, s.bits_read + 1⟩)

/-- The depth-reading loop: `path_info.depth |= (bit << depth_bit)`. -/
def readDepth (data : List Nat) (mdb : Nat) (s : ReaderState) : Nat × ReaderState :=
  (List.range mdb).foldl (fun acc i =>
    (acc.1 ||| (read_bit data acc.2).1 <<< i, (read_bit data acc.2).2)) (0, s)

/-- The path-reading loop: `path_info.bit_path[depth] = bit`. -/
def readPathBits (data : List Nat) (dep : Nat) (s : ReaderState) : Nat × ReaderState :=
  (List.range dep).foldl (fun acc i =>
    (assignBit acc.1 i ((read_bit data acc.2).1 = 1), (read_bit data acc.2).2)) (0, s)

/-- `value_t` narrowed to `alphabet_T` (`byte_t`): two's-complement
truncation, `Int.emod` into `[0, 256)`. -/
def intToByte (v : Int) : Nat := (v % 256).toNat

/-- `decode`'s `while (bits_read < written_bits)` loop.  Each iteration reads
`max_depth_bits` depth bits, then `depth` path bits, resolves the symbol
with `find_value` and records an occurrence of count 1.  `fuel` bounds the
iteration count (each iteration consumes at least one bit whenever
`max_depth_bits > 0`; with `max_depth_bits = 0` the source would spin
forever on a nonzero counter). -/
def decodeLoop (data : List Nat) (mdb : Nat) (t : BinaryTree) (written : Nat) :
    Nat → ReaderState → List Occurrence → List Occurrence × ReaderState
  | 0, s, acc => (acc, s)
  | fuel + 1, s, acc =>
      if s.bits_read < written then
        let rd := readDepth data mdb s
        let rp := readPathBits data rd.1 rd.2
        let letter := intToByte (t.find_value ⟨rp.1, rd.1⟩)
        decodeLoop data mdb t written fuel rp.2 (acc ++ [⟨letter, 1⟩])
      else (acc, s)

/-- Header parsing and bit loop of `XKC<byte_t>::decode(data_t, size_t)`:
read `max_depth_bits` and the alphabet size, read the trailing 32-bit
counter, rebuild the alphabet and the tree, and run the bit loop from the
byte after the alphabet.  Returns the decoded occurrence list and the
final reader state. -/
def decodeLoopOf (data : List Nat) (size : Nat) : List Occurrence × ReaderState :=
  let mdb := data.getD 0 0
  let alphabet_size := data.getD 1 0 + 1
  let written := data.getD (size - 4) 0 + 256 * data.getD (size - 3) 0
      + 65536 * data.getD (size - 2) 0 + 16777216 * data.getD (size - 1) 0
  let alphabet := (List.range alphabet_size).map (fun i => data.getD (2 + i) 0)
  let t := buildTree (alphabet.map (fun v : Nat => (v : Int)))
  decodeLoop data mdb t written written ⟨2 + alphabet_size, 0, 0⟩ []

/-- `XKC<byte_t>::decode(data_t, size_t)`: the loop above followed by the
final pass that concatenates the decoded occurrences. -/
def decodeSized (data : List Nat) (size : Nat) : List Nat :=
  (decodeLoopOf data size).1.map (fun o => o.letter_value)

/-- `XKC<byte_t>::decode(bytes_t)`. -/
def decodeBytes (data : List Nat) : List Nat := decodeSized data data.length

/-! ### Characterising `path_info`

The in-place bitset search of `path_info` is related to the clean preorder
direction list `findPath`.  On failure every touched bit has been reset to
zero (never newly set) and the depth field is untouched; on success the
bits at positions `d, ..., d + |p| - 1` hold the direction list `p`, bits
below `d` are untouched, and no bit at or beyond `d + |p|` has been newly
set. -/

theorem path_info_spec (n : Node) : ∀ (v : Int) (d : Nat) (pi : PathInfo),
    (n.findPath v = none →
      (n.path_info v d pi).1 = false ∧
      (n.path_info v d pi).2.depth = pi.depth ∧
      (∀ i, i < d → (n.path_info v d pi).2.bit_path.testBit i = pi.bit_path.testBit i) ∧
      (∀ i, (n.path_info v d pi).2.bit_path.testBit i = true →
        pi.bit_path.testBit i = true)) ∧
    (∀ p : List Bool, n.findPath v = some p →
      (n.path_info v d pi).1 = true ∧
      (n.path_info v d pi).2.depth = d + p.length ∧
      (∀ i, i < d → (n.path_info v d pi).2.bit_path.testBit i = pi.bit_path.testBit i) ∧
      (∀ j, (hj : j < p.length) →
        (n.path_info v d pi).2.bit_path.testBit (d + j) = p[j]) ∧
      (∀ i, d + p.length ≤ i → (n.path_info v d pi).2.bit_path.testBit i = true →
        pi.bit_path.testBit i = true)) := by
  induction n with
  | nil =>
      intro v d pi
      refine ⟨fun _ => ⟨rfl, rfl, fun i _ => rfl, fun i h => h⟩, fun p hp => ?_⟩
      simp [Node.findPath] at hp
  | node x l r ihl ihr =>
      intro v d pi
      by_cases hx : x = v
      · refine ⟨fun hnone => ?_, fun p hp => ?_⟩
        · simp [Node.findPath, hx] at hnone
        · have hp0 : p = [] := by simpa [Node.findPath, hx] using hp.symm
          subst hp0
          refine ⟨?_, ?_, ?_, ?_, ?_⟩
          · simp [Node.path_info, hx]
          · simp [Node.path_info, hx]
          · intro i _
            simp [Node.path_info, hx]
          · intro j hj
            simp at hj
          · intro i _ h
            simpa [Node.path_info, hx] using h
      · have ihl' := ihl v (d + 1) pi
        rcases hL : l.path_info v (d + 1) pi with ⟨fstL, bpL, depL⟩
        rw [hL] at ihl'
        cases hFL : l.findPath v with
        | some pl =>
            obtain ⟨hfst, hdep, hlow, hbits, hhigh⟩ := ihl'.2 pl hFL
            simp only at hfst hdep hlow hbits hhigh
            subst hfst
            refine ⟨fun hnone => ?_, fun p hp => ?_⟩
            · simp [Node.findPath, hx, hFL] at hnone
            · have hp' : p = false :: pl := by
                rw [Node.findPath] at hp
                simp only [hx, if_false, hFL] at hp
                exact (Option.some_inj.mp hp).symm
              subst hp'
              simp only [Node.path_info, hx, if_false, hL, if_true]
              refine ⟨trivial, by simp only [List.length_cons]; omega, ?_, ?_, ?_⟩
              · intro i hi
                simp only [testBit_assignBit]
                have hne : i ≠ d := by omega
                simp only [hne, if_false]
                exact hlow i (by omega)
              · intro j hj
                simp only [testBit_assignBit]
                cases j with
                | zero => simp
                | succ j' =>
                    have hne : d + (j' + 1) ≠ d := by omega
                    simp only [hne, if_false, List.getElem_cons_succ]
                    have hb := hbits j' (by simp only [List.length_cons] at hj; omega)
                    have harith : d + 1 + j' = d + (j' + 1) := by omega
                    rwa [harith] at hb
              · intro i hi h
                simp only [testBit_assignBit] at h
                have hne : i ≠ d := by
                  simp only [List.length_cons] at hi; omega
                simp only [hne, if_false] at h
                exact hhigh i (by simp only [List.length_cons] at hi; omega) h
        | none =>
            obtain ⟨hfst, hdep, hlow, hset⟩ := ihl'.1 hFL
            simp only at hfst hdep hlow hset
            subst hfst
            have ihr' := ihr v (d + 1) ⟨assignBit bpL d true, depL⟩
            rcases hR : r.path_info v (d + 1) ⟨assignBit bpL d true, depL⟩ with
              ⟨fstR, bpR, depR⟩
            rw [hR] at ihr'
            cases hFR : r.findPath v with
            | some pr =>
                obtain ⟨hRfst, hRdep, hRlow, hRbits, hRhigh⟩ := ihr'.2 pr hFR
                simp only at hRfst hRdep hRlow hRbits hRhigh
                subst hRfst
                refine ⟨fun hnone => ?_, fun p hp => ?_⟩
                · simp [Node.findPath, hx, hFL, hFR] at hnone
                · have hp' : p = true :: pr := by
                    rw [Node.findPath] at hp
                    simp only [hx, if_false, hFL, hFR] at hp
                    exact (Option.some_inj.mp hp).symm
                  subst hp'
                  simp only [Node.path_info, hx, if_false, hL, Bool.false_eq_true, hR,
                    if_true]
                  refine ⟨trivial, by simp only [List.length_cons]; omega, ?_, ?_, ?_⟩
                  · intro i hi
                    simp only [testBit_assignBit]
                    have hne : i ≠ d := by omega
                    simp only [hne, if_false]
                    rw [hRlow i (by omega)]
                    simp only [testBit_assignBit, hne, if_false]
                    exact hlow i (by omega)
                  · intro j hj
                    simp only [testBit_assignBit]
                    cases j with
                    | zero => simp
                    | succ j' =>
                        have hne : d + (j' + 1) ≠ d := by omega
                        simp only [hne, if_false, List.getElem_cons_succ]
                        have hb := hRbits j' (by simp only [List.length_cons] at hj; omega)
                        have harith : d + 1 + j' = d + (j' + 1) := by omega
                        rwa [harith] at hb
                  · intro i hi h
                    simp only [testBit_assignBit] at h
                    have hne : i ≠ d := by
                      simp only [List.length_cons] at hi; omega
                    simp only [hne, if_false] at h
                    have h2 := hRhigh i
                      (by simp only [List.length_cons] at hi; omega) h
                    simp only [testBit_assignBit, hne, if_false] at h2
                    exact hset i h2
            | none =>
                obtain ⟨hRfst, hRdep, hRlow, hRset⟩ := ihr'.1 hFR
                simp only at hRfst hRdep hRlow hRset
                subst hRfst
                refine ⟨fun hnone => ?_, fun p hp => ?_⟩
                swap
                · rw [Node.findPath] at hp
                  simp [hx, hFL, hFR] at hp
                · simp only [Node.path_info, hx, if_false, hL, Bool.false_eq_true, hR]
                  refine ⟨trivial, by omega, ?_, ?_⟩
                  · intro i hi
                    simp only [testBit_assignBit]
                    have hne : i ≠ d := by omega
                    simp only [hne, if_false]
                    rw [hRlow i (by omega)]
                    simp only [testBit_assignBit, hne, if_false]
                    exact hlow i (by omega)
                  · intro i h
                    simp only [testBit_assignBit] at h
                    by_cases hne : i = d
                    · simp [hne] at h
                    · simp only [hne, if_false] at h
                      have h2 := hRset i h
                      simp only [testBit_assignBit, hne, if_false] at h2
                      exact hset i h2

/-! ### `find_value` inverts `path_info` -/

/-- Walking `p.length` steps along bits that agree with the direction list
`p` of a found value reaches the node holding that value. -/
theorem walkPath_findPath : ∀ (p : List Bool) (n : Node) (v : Int) (bp i : Nat),
    n.findPath v = some p →
    (∀ j, (hj : j < p.length) → bp.testBit (i + j) = p[j]) →
    (n.walkPath bp i p.length).valueOf = v := by
  intro p
  induction p with
  | nil =>
      intro n v bp i hp _
      cases n with
      | nil => simp [Node.findPath] at hp
      | node x l r =>
          by_cases hx : x = v
          · simpa [Node.walkPath, Node.valueOf] using hx
          · rw [Node.findPath] at hp
            simp only [hx, if_false] at hp
            cases hFL : l.findPath v with
            | some pl => rw [hFL] at hp; simp at hp
            | none =>
                rw [hFL] at hp
                cases hFR : r.findPath v with
                | some pr => rw [hFR] at hp; simp at hp
                | none => rw [hFR] at hp; simp at hp
  | cons b p' ih =>
      intro n v bp i hp hbits
      cases n with
      | nil => simp [Node.findPath] at hp
      | node x l r =>
          by_cases hx : x = v
          · simp [Node.findPath, hx] at hp
          · rw [Node.findPath] at hp
            simp only [hx, if_false] at hp
            have hbit0 : bp.testBit i = b := by
              have := hbits 0 (by simp)
              simpa using this
            have hshift : ∀ j, (hj : j < p'.length) → bp.testBit (i + 1 + j) = p'[j] := by
              intro j hj
              have h2 := hbits (j + 1) (by simp only [List.length_cons]; omega)
              have harith : i + 1 + j = i + (j + 1) := by omega
              rw [harith]
              simpa using h2
            cases hFL : l.findPath v with
            | some pl =>
                rw [hFL] at hp
                simp only [Option.some_inj, List.cons.injEq] at hp
                obtain ⟨hb, hpl⟩ := hp
                subst hb
                subst hpl
                simp only [List.length_cons, Node.walkPath, hbit0, Bool.false_eq_true,
                  if_false]
                exact ih l v bp (i + 1) hFL hshift
            | none =>
                rw [hFL] at hp
                cases hFR : r.findPath v with
                | some pr =>
                    rw [hFR] at hp
                    simp only [Option.some_inj, List.cons.injEq] at hp
                    obtain ⟨hb, hpr⟩ := hp
                    subst hb
                    subst hpr
                    simp only [List.length_cons, Node.walkPath, hbit0, if_true]
                    exact ih r v bp (i + 1) hFR hshift
                | none => rw [hFR] at hp; simp at hp

/-- A found direction list is never longer than the node's height. -/
theorem findPath_length_le_height : ∀ (n : Node) (v : Int) (p : List Bool),
    n.findPath v = some p → p.length ≤ n.height := by
  intro n
  induction n with
  | nil => intro v p hp; simp [Node.findPath] at hp
  | node x l r ihl ihr =>
      intro v p hp
      rw [Node.findPath] at hp
      by_cases hx : x = v
      · simp only [hx, if_true, Option.some_inj] at hp
        simp [hp.symm]
      · simp only [hx, if_false] at hp
        cases hFL : l.findPath v with
        | some pl =>
            rw [hFL] at hp
            simp only [Option.some_inj] at hp
            have hl : l ≠ Node.nil := by
              intro hnil; rw [hnil] at hFL; simp [Node.findPath] at hFL
            have := ihl v pl hFL
            rw [Node.height, hp.symm]
            simp only [List.length_cons, hl, if_false]
            omega
        | none =>
            rw [hFL] at hp
            cases hFR : r.findPath v with
            | some pr =>
                rw [hFR] at hp
                simp only [Option.some_inj] at hp
                have hr : r ≠ Node.nil := by
                  intro hnil; rw [hnil] at hFR; simp [Node.findPath] at hFR
                have := ihr v pr hFR
                rw [Node.height, hp.symm]
                simp only [List.length_cons, hr, if_false]
                omega
            | none => rw [hFR] at hp; simp at hp

/-! ### Insertion keeps and creates findable values -/

/-- `insertAt` never changes the value or nullity of the node it acts on. -/
theorem insertAt_shape (x : Int) (l r : Node) (v : Int) :
    ∃ l2 r2, (Node.node x l r).insertAt v = Node.node x l2 r2 := by
  rw [Node.insertAt]
  by_cases hl : l = Node.nil
  · exact ⟨Node.node v .nil .nil, r, by simp [hl]⟩
  · by_cases hr : r = Node.nil
    · exact ⟨l, Node.node v .nil .nil, by simp [hl, hr]⟩
    · by_cases hc : l.count_nodes ≤ r.count_nodes
      · exact ⟨l.insertAt v, r, by simp [hl, hr, hc]⟩
      · exact ⟨l, r.insertAt v, by simp [hl, hr, hc]⟩

/-- The freshly inserted value is findable. -/
theorem insertAt_find_self : ∀ (n : Node) (v : Int), n ≠ Node.nil →
    (n.insertAt v).findPath v ≠ none := by
  intro n
  induction n with
  | nil => intro v h; exact absurd rfl h
  | node x l r ihl ihr =>
      intro v _
      rw [Node.insertAt]
      by_cases hl : l = Node.nil
      · simp only [hl, if_true]
        by_cases hx : x = v
        · simp [Node.findPath, hx]
        · simp [Node.findPath, hx]
      · by_cases hr : r = Node.nil
        · simp only [hl, if_false, hr, if_true]
          rw [Node.findPath]
          by_cases hx : x = v
          · simp [hx]
          · simp only [hx, if_false]
            cases hFL : l.findPath v with
            | some pl => simp
            | none => simp [Node.findPath]
        · simp only [hl, if_false, hr]
          by_cases hc : l.count_nodes ≤ r.count_nodes
          · simp only [hc, if_true]
            rw [Node.findPath]
            by_cases hx : x = v
            · simp [hx]
            · simp only [hx, if_false]
              cases hFL : (l.insertAt v).findPath v with
              | some pl => simp
              | none => exact absurd hFL (ihl v hl)
          · simp only [hc, if_false]
            rw [Node.findPath]
            by_cases hx : x = v
            · simp [hx]
            · simp only [hx, if_false]
              cases hFL : l.findPath v with
              | some pl => simp
              | none =>
                  cases hFR : (r.insertAt v).findPath v with
                  | some pr => simp
                  | none => exact absurd hFR (ihr v hr)

/-- Inserting a different value cannot make an absent value findable. -/
theorem insertAt_find_absent : ∀ (n : Node) (w v : Int), w ≠ v →
    n.findPath v = none → (n.insertAt w).findPath v = none := by
  intro n
  induction n with
  | nil => intro w v _ _; simp [Node.insertAt, Node.findPath]
  | node x l r ihl ihr =>
      intro w v hwv hnone
      rw [Node.findPath] at hnone
      by_cases hx : x = v
      · simp [hx] at hnone
      · simp only [hx, if_false] at hnone
        cases hFL : l.findPath v with
        | some pl => rw [hFL] at hnone; simp at hnone
        | none =>
            rw [hFL] at hnone
            cases hFR : r.findPath v with
            | some pr => rw [hFR] at hnone; simp at hnone
            | none =>
                rw [Node.insertAt]
                by_cases hl : l = Node.nil
                · simp only [hl, if_true]
                  rw [Node.findPath]
                  simp only [hx, if_false]
                  have h1 : (Node.node w Node.nil Node.nil).findPath v = none := by
                    simp [Node.findPath, hwv]
                  rw [h1, hFR]
                · by_cases hr : r = Node.nil
                  · simp only [hl, if_false, hr, if_true]
                    rw [Node.findPath]
                    simp only [hx, if_false]
                    rw [hFL]
                    simp [Node.findPath, hwv]
                  · by_cases hc : l.count_nodes ≤ r.count_nodes
                    · simp only [hl, if_false, hr, if_false, hc, if_true]
                      rw [Node.findPath]
                      simp only [hx, if_false]
                      rw [ihl w v hwv hFL, hFR]
                    · simp only [hl, if_false, hr, if_false, hc, if_false]
                      rw [Node.findPath]
                      simp only [hx, if_false]
                      rw [hFL, ihr w v hwv hFR]

/-- Insertion preserves findability of already present values. -/
theorem insertAt_find_preserve : ∀ (n : Node) (w v : Int),
    n.findPath v ≠ none → (n.insertAt w).findPath v ≠ none := by
  intro n
  induction n with
  | nil => intro w v h; simp [Node.findPath] at h
  | node x l r ihl ihr =>
      intro w v hfind
      by_cases hwv : w = v
      · subst hwv
        exact insertAt_find_self (Node.node x l r) w (by simp)
      · rw [Node.findPath] at hfind
        rw [Node.insertAt]
        by_cases hx : x = v
        · obtain ⟨l2, r2, heq⟩ := insertAt_shape x l r w
          rw [Node.insertAt] at heq
          rw [heq, Node.findPath]
          simp [hx]
        · simp only [hx, if_false] at hfind
          by_cases hl : l = Node.nil
          · simp only [hl, if_true]
            rw [Node.findPath]
            simp only [hx, if_false]
            rw [hl] at hfind
            simp only [Node.findPath] at hfind
            have h1 : (Node.node w Node.nil Node.nil).findPath v = none := by
              simp [Node.findPath, hwv]
            rw [h1]
            exact hfind
          · by_cases hr : r = Node.nil
            · simp only [hl, if_false, hr, if_true]
              rw [Node.findPath]
              simp only [hx, if_false]
              cases hFL : l.findPath v with
              | some pl => simp
              | none =>
                  rw [hFL] at hfind
                  rw [hr] at hfind
                  simp [Node.findPath] at hfind
            · by_cases hc : l.count_nodes ≤ r.count_nodes
              · simp only [hl, if_false, hr, if_false, hc, if_true]
                rw [Node.findPath]
                simp only [hx, if_false]
                cases hFL : l.findPath v with
                | some pl =>
                    cases hFL2 : (l.insertAt w).findPath v with
                    | some q => simp
                    | none =>
                        exact absurd hFL2 (ihl w v (by simp [hFL]))
                | none =>
                    rw [hFL] at hfind
                    rw [insertAt_find_absent l w v hwv hFL]
                    exact hfind
              · simp only [hl, if_false, hr, if_false, hc, if_false]
                rw [Node.findPath]
                simp only [hx, if_false]
                cases hFL : l.findPath v with
                | some pl => simp
                | none =>
                    rw [hFL] at hfind
                    cases hFR2 : (r.insertAt w).findPath v with
                    | some q => simp
                    | none =>
                        refine absurd hFR2 (ihr w v ?_)
                        intro hnone
                        rw [hnone] at hfind
                        simp at hfind

/-- The root produced by a fold of insertions is an allocated node with a
non-sentinel value once the value invariants hold, and every value of the
list (as well as every previously findable value) is findable in it. -/
theorem foldl_insert_find (vs : List Int) : ∀ (t : BinaryTree) (v : Int),
    (∀ x ∈ vs, 0 ≤ x) →
    (∃ x l r, t.root = Node.node x l r ∧ x ≠ INVALID) →
    (t.root.findPath v ≠ none ∨ v ∈ vs) →
    (vs.foldl BinaryTree.insert t).root.findPath v ≠ none := by
  induction vs with
  | nil =>
      intro t v _ _ hdisj
      rcases hdisj with h | h
      · simpa using h
      · simp at h
  | cons w vs ih =>
      intro t v hvs hshape hdisj
      obtain ⟨x, l, r, hroot, hx⟩ := hshape
      have hinsert : (t.insert w).root = (Node.node x l r).insertAt w := by
        rw [BinaryTree.insert, hroot]
        simp [hx]
      obtain ⟨l2, r2, hshape2⟩ := insertAt_shape x l r w
      rw [List.foldl_cons]
      refine ih (t.insert w) v (fun y hy => hvs y (by simp [hy]))
        ⟨x, l2, r2, by rw [hinsert, hshape2], hx⟩ ?_
      rcases hdisj with h | h
      · left
        rw [hinsert, ← hroot]
        exact insertAt_find_preserve t.root w v h
      · rcases List.mem_cons.mp h with h | h
        · left
          rw [hinsert, h]
          exact insertAt_find_self (Node.node x l r) w (by simp)
        · right
          exact h

/-- Every inserted (non-negative) value is findable in the built tree. -/
theorem buildTree_find (vs : List Int) (v : Int)
    (h0 : ∀ x ∈ vs, 0 ≤ x) (hv : v ∈ vs) :
    (buildTree vs).root.findPath v ≠ none := by
  cases vs with
  | nil => simp at hv
  | cons w vs =>
      have hw : (0 : Int) ≤ w := h0 w (by simp)
      have hfirst : (BinaryTree.empty.insert w).root = Node.node w Node.nil Node.nil := by
        rw [BinaryTree.insert]
        simp [BinaryTree.empty, INVALID]
      rw [buildTree, List.foldl_cons]
      refine foldl_insert_find vs (BinaryTree.empty.insert w) v
        (fun y hy => h0 y (by simp [hy]))
        ⟨w, Node.nil, Node.nil, hfirst, by rw [INVALID]; omega⟩ ?_
      rcases List.mem_cons.mp hv with h | h
      · left
        rw [hfirst, h]
        simp [Node.findPath]
      · right
        exact h

/-- C3: for every tree built by a sequence of `insert` calls and every
symbol that was inserted, `path_info` succeeds, and `find_value` applied
to the `(depth, bit-path)` it produced (walking `depth` levels from the
root, 0 = left, 1 = right) returns that same symbol: `find_value` is the
exact inverse of `path_info`.  Values are the widened images of
`alphabet_T` symbols, hence non-negative. -/
theorem find_value_inverts_path_info (vs : List Int) (v : Int)
    (h0 : ∀ x ∈ vs, 0 ≤ x) (hv : v ∈ vs) :
    ((buildTree vs).path_info v {}).1 = true ∧
    (buildTree vs).find_value ((buildTree vs).path_info v {}).2 = v := by
  have hfind := buildTree_find vs v h0 hv
  cases hp : (buildTree vs).root.findPath v with
  | none => exact absurd hp hfind
  | some p =>
      obtain ⟨hfst, hdep, hlow, hbits, hhigh⟩ :=
        (path_info_spec (buildTree vs).root v 0 {}).2 p hp
      refine ⟨hfst, ?_⟩
      rw [BinaryTree.find_value, BinaryTree.path_info]
      rw [show ((buildTree vs).root.path_info v 0 {}).2.depth = p.length from by omega]
      refine walkPath_findPath p (buildTree vs).root v _ 0 hp ?_
      intro j hj
      have hb := hbits j hj
      simpa using hb

/-- Witness for C3 at the concrete insertion sequence `[65, 66, 67]` and
symbol `67`. -/
theorem find_value_inverts_path_info_witness :
    ((buildTree [65, 66, 67]).path_info 67 {}).1 = true ∧
    (buildTree [65, 66, 67]).find_value ((buildTree [65, 66, 67]).path_info 67 {}).2 = 67 :=
  find_value_inverts_path_info [65, 66, 67] 67 (by decide) (by decide)

/-! ### Shape invariants of the insertion balance rule -/

/-- Left-before-right: no node has a right child while its left slot is
empty. -/
def Node.leftFilled : Node → Bool
  | .nil => true
  | .node _ l r =>
      (decide (r = Node.nil) || !decide (l = Node.nil)) && l.leftFilled && r.leftFilled

/-- The shape discipline maintained by `insert`: at every node the left
subtree holds either exactly as many nodes as the right one or one more. -/
def Node.Canon : Node → Prop
  | .nil => True
  | .node _ l r => r.size ≤ l.size ∧ l.size ≤ r.size + 1 ∧ l.Canon ∧ r.Canon

theorem size_eq_zero_iff (n : Node) : n.size = 0 ↔ n = Node.nil := by
  cases n with
  | nil => simp [Node.size]
  | node x l r => simp [Node.size]

/-- `count_nodes` of a child slot, shifted by the slot itself, is the
subtree size. -/
theorem slot_count (n : Node) :
    (if n = Node.nil then 0 else n.count_nodes + 1) = n.size := by
  induction n with
  | nil => simp [Node.size]
  | node x l r ihl ihr =>
      simp only [reduceCtorEq, if_false, Node.count_nodes, Node.size, ihl, ihr]
      omega

theorem count_nodes_node (x : Int) (l r : Node) :
    (Node.node x l r).count_nodes = l.size + r.size := by
  rw [Node.count_nodes, slot_count l, slot_count r]

/-- `count_nodes` comparisons between allocated children are size
comparisons. -/
theorem count_le_iff_size_le (l r : Node) (hl : l ≠ Node.nil) (hr : r ≠ Node.nil) :
    (l.count_nodes ≤ r.count_nodes ↔ l.size ≤ r.size) := by
  have h1 := slot_count l
  have h2 := slot_count r
  simp only [hl, hr, if_false] at h1 h2
  omega

theorem insertAt_size (v : Int) : ∀ (n : Node), n ≠ Node.nil →
    (n.insertAt v).size = n.size + 1 := by
  intro n
  induction n with
  | nil => intro h; exact absurd rfl h
  | node x l r ihl ihr =>
      intro _
      rw [Node.insertAt]
      by_cases hl : l = Node.nil
      · simp only [hl, if_true, Node.size]
        omega
      · by_cases hr : r = Node.nil
        · simp only [hl, if_false, hr, if_true, Node.size]
        · by_cases hc : l.count_nodes ≤ r.count_nodes
          · simp only [hl, if_false, hr, hc, if_true, Node.size, ihl hl]
            omega
          · simp only [hl, if_false, hr, hc, Node.size, ihr hr]
            omega

theorem insertAt_canon (v : Int) : ∀ (n : Node), n ≠ Node.nil → n.Canon →
    (n.insertAt v).Canon := by
  intro n
  induction n with
  | nil => intro h; exact absurd rfl h
  | node x l r ihl ihr =>
      intro _ hC
      obtain ⟨h1, h2, hCl, hCr⟩ := hC
      rw [Node.insertAt]
      by_cases hl : l = Node.nil
      · have hr : r = Node.nil := by
          rw [← size_eq_zero_iff]
          rw [hl] at h1
          simpa [Node.size] using h1
        subst hl
        subst hr
        exact ⟨by simp [Node.size], by simp [Node.size], ⟨by simp [Node.size],
          by simp [Node.size], trivial, trivial⟩, trivial⟩
      · by_cases hr : r = Node.nil
        · have hsl : l.size = 1 := by
            have := (size_eq_zero_iff l).not
            rw [hr] at h2
            simp [Node.size] at h2
            have : l.size ≠ 0 := fun h => hl ((size_eq_zero_iff l).mp h)
            omega
          simp only [hl, if_false, hr, if_true]
          exact ⟨by simp [Node.size, hsl], by simp [Node.size, hsl], hCl,
            ⟨by simp [Node.size], by simp [Node.size], trivial, trivial⟩⟩
        · by_cases hc : l.count_nodes ≤ r.count_nodes
          · have hsz : l.size ≤ r.size := (count_le_iff_size_le l r hl hr).mp hc
            simp only [hl, if_false, hr, hc, if_true]
            refine ⟨?_, ?_, ihl hl hCl, hCr⟩
            · rw [insertAt_size v l hl]; omega
            · rw [insertAt_size v l hl]; omega
          · have hsz : ¬ l.size ≤ r.size := fun h =>
              hc ((count_le_iff_size_le l r hl hr).mpr h)
            simp only [hl, if_false, hr, hc]
            refine ⟨?_, ?_, hCl, ihr hr hCr⟩
            · rw [insertAt_size v r hr]; omega
            · rw [insertAt_size v r hr]; omega

/-- The balance discipline forces the left slot to fill before the right. -/
theorem canon_leftFilled : ∀ (n : Node), n.Canon → n.leftFilled = true := by
  intro n
  induction n with
  | nil => intro _; rfl
  | node x l r ihl ihr =>
      intro hC
      obtain ⟨h1, h2, hCl, hCr⟩ := hC
      rw [Node.leftFilled]
      simp only [Bool.and_eq_true, Bool.or_eq_true, decide_eq_true_eq, Bool.not_eq_eq_eq_not,
        Bool.not_true, decide_eq_false_iff_not]
      refine ⟨⟨?_, ihl hCl⟩, ihr hCr⟩
      by_cases hr : r = Node.nil
      · left; exact hr
      · right
        intro hlnil
        rw [hlnil] at h1
        simp [Node.size] at h1
        exact hr ((size_eq_zero_iff r).mp h1)

/-- Depth (in edges, from the root of the subtree, counting the placed
node) at which `insertAt` would place the next value. -/
def Node.insertDepth : Node → Nat
  | .nil => 0
  | .node _ l r =>
      if l = Node.nil then 1
      else if r = Node.nil then 1
      else if l.count_nodes ≤ r.count_nodes then l.insertDepth + 1
      else r.insertDepth + 1

/-- Depth at which `BinaryTree::insert` would place the next value: the
first insertion claims the root itself (depth 0). -/
def BinaryTree.nextInsertDepth (t : BinaryTree) : Nat :=
  match t.root with
  | .nil => 0
  | .node x _ _ => if x = INVALID then 0 else t.root.insertDepth

/-- The insertion depth of a balanced shape as a function of its size
alone. -/
def shapeDepth (m : Nat) : Nat :=
  if m ≤ 2 then 1 else 1 + shapeDepth ((m - 1) / 2)
termination_by m
decreasing_by omega

theorem one_le_shapeDepth (m : Nat) : 1 ≤ shapeDepth m := by
  unfold shapeDepth
  split
  · exact le_refl 1
  · omega

theorem shapeDepth_le2 (m : Nat) (h : m ≤ 2) : shapeDepth m = 1 := by
  rw [shapeDepth]
  simp [h]

theorem shapeDepth_gt2 (m : Nat) (h : ¬ m ≤ 2) : shapeDepth m = 1 + shapeDepth ((m - 1) / 2) := by
  rw [shapeDepth]
  simp [h]

theorem shapeDepth_mono : ∀ (b a : Nat), a ≤ b → shapeDepth a ≤ shapeDepth b := by
  intro b
  induction b using Nat.strong_induction_on with
  | _ b ih =>
      intro a hab
      by_cases hb : b ≤ 2
      · have ha : a ≤ 2 := by omega
        unfold shapeDepth
        simp [ha, hb]
      · by_cases ha : a ≤ 2
        · calc shapeDepth a = 1 := shapeDepth_le2 a ha
            _ ≤ shapeDepth b := one_le_shapeDepth b
        · rw [shapeDepth_gt2 a ha, shapeDepth_gt2 b hb]
          have h1 : (a - 1) / 2 ≤ (b - 1) / 2 := by omega
          have h2 : (b - 1) / 2 < b := by omega
          exact Nat.add_le_add_left (ih ((b - 1) / 2) h2 ((a - 1) / 2) h1) 1

/-- On balanced shapes the insertion depth depends only on the size. -/
theorem insertDepth_eq_shapeDepth : ∀ (n : Node), n ≠ Node.nil → n.Canon →
    n.insertDepth = shapeDepth n.size := by
  intro n
  induction n with
  | nil => intro h; exact absurd rfl h
  | node x l r ihl ihr =>
      intro _ hC
      obtain ⟨h1, h2, hCl, hCr⟩ := hC
      rw [Node.insertDepth]
      by_cases hl : l = Node.nil
      · have hr : r = Node.nil := by
          rw [← size_eq_zero_iff]
          rw [hl] at h1
          simpa [Node.size] using h1
        subst hl
        subst hr
        rw [shapeDepth_le2 _ (by simp [Node.size])]
        simp
      · by_cases hr : r = Node.nil
        · have hsl : l.size = 1 := by
            have hne : l.size ≠ 0 := fun h => hl ((size_eq_zero_iff l).mp h)
            rw [hr] at h2
            simp only [Node.size] at h2
            omega
          simp only [hl, if_false, hr, if_true]
          rw [shapeDepth_le2 _ (by simp [Node.size, hsl])]
        · have hlpos : 1 ≤ l.size := by
            rcases Nat.eq_zero_or_pos l.size with h | h
            · exact absurd ((size_eq_zero_iff l).mp h) hl
            · exact h
          have hrpos : 1 ≤ r.size := by
            rcases Nat.eq_zero_or_pos r.size with h | h
            · exact absurd ((size_eq_zero_iff r).mp h) hr
            · exact h
          simp only [hl, if_false, hr]
          by_cases hc : l.count_nodes ≤ r.count_nodes
          · have hsz : l.size ≤ r.size := (count_le_iff_size_le l r hl hr).mp hc
            have heq : l.size = r.size := by omega
            simp only [hc, if_true, ihl hl hCl]
            have hsize : (Node.node x l r).size = 1 + l.size + r.size := rfl
            rw [hsize, shapeDepth_gt2 (1 + l.size + r.size) (by omega)]
            have harith : (1 + l.size + r.size - 1) / 2 = l.size := by omega
            rw [harith]
            omega
          · have hsz : ¬ l.size ≤ r.size := fun h =>
              hc ((count_le_iff_size_le l r hl hr).mpr h)
            have heq : l.size = r.size + 1 := by omega
            simp only [hc, if_false, ihr hr hCr]
            have hsize : (Node.node x l r).size = 1 + l.size + r.size := rfl
            rw [hsize, shapeDepth_gt2 (1 + l.size + r.size) (by omega)]
            have harith : (1 + l.size + r.size - 1) / 2 = r.size := by omega
            rw [harith]
            omega

/-- Canonicity, size accounting and root shape along a fold of
insertions. -/
theorem foldl_insert_state (vs : List Int) : ∀ (t : BinaryTree),
    (∃ x l r, t.root = Node.node x l r ∧ x ≠ INVALID) → t.root.Canon →
    (vs.foldl BinaryTree.insert t).root.Canon ∧
    (vs.foldl BinaryTree.insert t).root.size = t.root.size + vs.length ∧
    (∃ x l r, (vs.foldl BinaryTree.insert t).root = Node.node x l r ∧ x ≠ INVALID) := by
  induction vs with
  | nil =>
      intro t hshape hC
      exact ⟨hC, by simp, hshape⟩
  | cons w vs ih =>
      intro t hshape hC
      obtain ⟨x, l, r, hroot, hx⟩ := hshape
      have hinsert : (t.insert w).root = (Node.node x l r).insertAt w := by
        rw [BinaryTree.insert, hroot]
        simp [hx]
      obtain ⟨l2, r2, hshape2⟩ := insertAt_shape x l r w
      have hC2 : (t.insert w).root.Canon := by
        rw [hinsert, ← hroot]
        exact insertAt_canon w t.root (by rw [hroot]; simp) (by exact hC)
      have hsz2 : (t.insert w).root.size = t.root.size + 1 := by
        rw [hinsert, ← hroot]
        exact insertAt_size w t.root (by rw [hroot]; simp)
      rw [List.foldl_cons]
      obtain ⟨hA, hB, hD⟩ := ih (t.insert w) ⟨x, l2, r2, by rw [hinsert, hshape2], hx⟩ hC2
      refine ⟨hA, ?_, hD⟩
      rw [hB, hsz2]
      simp only [List.length_cons]
      omega

/-- C6: after every sequence of `insert` operations the tree is
left-filled (a lone child always sits in the left slot), and an insertion
at a node with both slots allocated descends into the child whose
`count_nodes` total is not larger, going left on ties. -/
theorem insert_left_first_balance (vs : List Int) (h0 : ∀ x ∈ vs, 0 ≤ x) :
    (buildTree vs).root.leftFilled = true ∧
    (∀ (x v : Int) (l r : Node), l ≠ Node.nil → r ≠ Node.nil →
      (l.count_nodes ≤ r.count_nodes →
        (Node.node x l r).insertAt v = Node.node x (l.insertAt v) r) ∧
      (r.count_nodes < l.count_nodes →
        (Node.node x l r).insertAt v = Node.node x l (r.insertAt v))) := by
  constructor
  · refine canon_leftFilled (buildTree vs).root ?_
    cases vs with
    | nil =>
        exact ⟨by simp [Node.size], by simp [Node.size], trivial, trivial⟩
    | cons w vs =>
        have hfirst : (BinaryTree.empty.insert w).root = Node.node w Node.nil Node.nil := by
          rw [BinaryTree.insert]
          simp [BinaryTree.empty, INVALID]
        rw [buildTree, List.foldl_cons]
        refine (foldl_insert_state vs (BinaryTree.empty.insert w) ?_ ?_).1
        · have hw : (0 : Int) ≤ w := h0 w (by simp)
          exact ⟨w, Node.nil, Node.nil, hfirst, by rw [INVALID]; omega⟩
        · rw [hfirst]
          exact ⟨by simp [Node.size], by simp [Node.size], trivial, trivial⟩
  · intro x v l r hl hr
    constructor
    · intro hc
      rw [Node.insertAt]
      simp [hl, hr, hc]
    · intro hc
      rw [Node.insertAt]
      simp [hl, hr, Nat.not_le_of_lt hc]

/-- Witness for C6 with the insertions `[5, 6, 7]` and a concrete
two-child node. -/
theorem insert_left_first_balance_witness :
    (buildTree [5, 6, 7]).root.leftFilled = true ∧
    ((Node.node 5 (Node.node 6 Node.nil Node.nil) (Node.node 7 Node.nil Node.nil)).insertAt 8
      = Node.node 5 ((Node.node 6 Node.nil Node.nil).insertAt 8) (Node.node 7 Node.nil Node.nil)) := by
  have h := insert_left_first_balance [5, 6, 7] (by decide)
  refine ⟨h.1, ?_⟩
  exact ((h.2 5 8 (Node.node 6 Node.nil Node.nil) (Node.node 7 Node.nil Node.nil)
    (by decide) (by decide)).1 (by decide))

/-- C8: the depth assigned to successive insertions never decreases:
symbols inserted earlier (higher frequency, since the driver inserts in
descending-frequency order) sit at depths no greater than those of later
symbols. -/
theorem insert_depth_monotone (vs : List Int) (v : Int) (h0 : ∀ x ∈ vs, 0 ≤ x) :
    (buildTree vs).nextInsertDepth ≤ (buildTree (vs ++ [v])).nextInsertDepth := by
  cases vs with
  | nil => simp [buildTree, BinaryTree.nextInsertDepth, BinaryTree.empty, BinaryTree.insert, INVALID]
  | cons w vs =>
      have hw : (0 : Int) ≤ w := h0 w (by simp)
      have hwI : w ≠ INVALID := by rw [INVALID]; omega
      have hfirst : (BinaryTree.empty.insert w).root = Node.node w Node.nil Node.nil := by
        rw [BinaryTree.insert]
        simp [BinaryTree.empty, INVALID]
      have hCfirst : (BinaryTree.empty.insert w).root.Canon := by
        rw [hfirst]
        exact ⟨by simp [Node.size], by simp [Node.size], trivial, trivial⟩
      have hshapefirst : ∃ x l r, (BinaryTree.empty.insert w).root = Node.node x l r ∧
          x ≠ INVALID := ⟨w, Node.nil, Node.nil, hfirst, hwI⟩
      have hsizefirst : (BinaryTree.empty.insert w).root.size = 1 := by
        rw [hfirst]
        simp [Node.size]
      obtain ⟨hC1, hS1, x1, l1, r1, hroot1, hx1⟩ :=
        foldl_insert_state vs (BinaryTree.empty.insert w) hshapefirst hCfirst
      obtain ⟨hC2, hS2, x2, l2, r2, hroot2, hx2⟩ :=
        foldl_insert_state (vs ++ [v]) (BinaryTree.empty.insert w) hshapefirst hCfirst
      have hb1 : buildTree (w :: vs) = vs.foldl BinaryTree.insert (BinaryTree.empty.insert w) := by
        rw [buildTree, List.foldl_cons]
      have hb2 : buildTree (w :: vs ++ [v])
          = (vs ++ [v]).foldl BinaryTree.insert (BinaryTree.empty.insert w) := by
        rw [buildTree, List.cons_append, List.foldl_cons]
      rw [hb1, hb2]
      have hroot1ne : (vs.foldl BinaryTree.insert (BinaryTree.empty.insert w)).root ≠ Node.nil := by
        rw [hroot1]; simp
      have hroot2ne : ((vs ++ [v]).foldl BinaryTree.insert (BinaryTree.empty.insert w)).root
          ≠ Node.nil := by
        rw [hroot2]; simp
      have hd1 : (vs.foldl BinaryTree.insert (BinaryTree.empty.insert w)).nextInsertDepth
          = shapeDepth (1 + vs.length) := by
        rw [BinaryTree.nextInsertDepth]
        split
        · next heq => exact absurd heq hroot1ne
        · next x l r heq =>
            have hx : x = x1 := by rw [hroot1] at heq; cases heq; rfl
            rw [hx]
            simp only [hx1, if_false]
            rw [insertDepth_eq_shapeDepth _ hroot1ne hC1, hS1, hsizefirst]
      have hd2 : ((vs ++ [v]).foldl BinaryTree.insert (BinaryTree.empty.insert w)).nextInsertDepth
          = shapeDepth (1 + (vs.length + 1)) := by
        rw [BinaryTree.nextInsertDepth]
        split
        · next heq => exact absurd heq hroot2ne
        · next x l r heq =>
            have hx : x = x2 := by rw [hroot2] at heq; cases heq; rfl
            rw [hx]
            simp only [hx2, if_false]
            rw [insertDepth_eq_shapeDepth _ hroot2ne hC2, hS2, hsizefirst]
            simp
      rw [hd1, hd2]
      exact shapeDepth_mono (1 + (vs.length + 1)) (1 + vs.length) (by omega)

/-- Witness for C8 at the sequence `[9, 8, 7]` extended by `6`. -/
theorem insert_depth_monotone_witness :
    (buildTree [9, 8, 7]).nextInsertDepth ≤ (buildTree ([9, 8, 7] ++ [6])).nextInsertDepth :=
  insert_depth_monotone [9, 8, 7] 6 (by decide)

/-! ### Run-length collapse properties -/

/-- Total number of symbols covered by a run list. -/
def sumCounts (os : List Occurrence) : Nat := (os.map (fun o => o.count)).sum

/-- Reconstruction of the symbol sequence covered by a run list. -/
def runsFlatten (os : List Occurrence) : List Nat :=
  os.foldr (fun o acc => List.replicate o.count o.letter_value ++ acc) []

/-- The fewest runs covering `L` copies of `v` under the 255 cap (fuel-driven
so that concrete instances reduce in the kernel; the fuel argument covers
the recursion whenever it is at least `L`). -/
def minimalRunsF (v : Nat) : Nat → Nat → List Occurrence
  | _, 0 => []
  | 0, _ + 1 => []
  | fuel + 1, L + 1 =>
      if L + 1 ≤ 255 then [⟨v, L + 1⟩]
      else ⟨v, 255⟩ :: minimalRunsF v fuel (L + 1 - 255)

def minimalRuns (v L : Nat) : List Occurrence := minimalRunsF v L L

theorem minimalRunsF_fuel (v : Nat) : ∀ (f1 : Nat), ∀ (f2 L : Nat), L ≤ f1 → L ≤ f2 →
    minimalRunsF v f1 L = minimalRunsF v f2 L := by
  intro f1
  induction f1 with
  | zero =>
      intro f2 L h1 _
      interval_cases L
      cases f2 <;> rfl
  | succ g1 ih =>
      intro f2 L h1 h2
      cases L with
      | zero => cases f2 <;> rfl
      | succ L =>
          cases f2 with
          | zero => omega
          | succ g2 =>
              rw [minimalRunsF, minimalRunsF]
              by_cases hle : L + 1 ≤ 255
              · simp [hle]
              · simp only [hle, if_false]
                rw [ih g2 (L + 1 - 255) (by omega) (by omega)]

theorem minimalRuns_small (v L : Nat) (h1 : 1 ≤ L) (h2 : L ≤ 255) :
    minimalRuns v L = [⟨v, L⟩] := by
  rw [minimalRuns]
  cases L with
  | zero => omega
  | succ L =>
      cases hL : L + 1 with
      | zero => omega
      | succ m =>
          rw [minimalRunsF]
          simp only [← hL, h2, if_true]

theorem minimalRuns_large (v L : Nat) (h : 256 ≤ L) :
    minimalRuns v L = ⟨v, 255⟩ :: minimalRuns v (L - 255) := by
  rw [minimalRuns]
  cases L with
  | zero => omega
  | succ L =>
      rw [minimalRunsF]
      have hle : ¬ L + 1 ≤ 255 := by omega
      simp only [hle, if_false, List.cons.injEq, true_and]
      rw [minimalRuns]
      exact minimalRunsF_fuel v L (L + 1 - 255) (L + 1 - 255) (by omega) (by omega)

theorem minimalRuns_spec (v : Nat) : ∀ (L : Nat), 1 ≤ L →
    sumCounts (minimalRuns v L) = L ∧
    (minimalRuns v L).length = (L + 254) / 255 ∧
    (∀ o ∈ minimalRuns v L, o.letter_value = v ∧ 1 ≤ o.count ∧ o.count ≤ 255) := by
  intro L
  induction L using Nat.strong_induction_on with
  | _ L ih =>
      intro hL
      by_cases hsmall : L ≤ 255
      · rw [minimalRuns_small v L hL hsmall]
        refine ⟨by simp [sumCounts], ?_, ?_⟩
        · simp only [List.length_cons, List.length_nil]
          omega
        · intro o ho
          simp only [List.mem_singleton] at ho
          subst ho
          exact ⟨rfl, hL, hsmall⟩
      · rw [minimalRuns_large v L (by omega)]
        obtain ⟨hsum, hlen, hmem⟩ := ih (L - 255) (by omega) (by omega)
        refine ⟨?_, ?_, ?_⟩
        · simp only [sumCounts, List.map_cons, List.sum_cons] at hsum ⊢
          omega
        · simp only [List.length_cons, hlen]
          omega
        · intro o ho
          rcases List.mem_cons.mp ho with h | h
          · subst h
            exact ⟨rfl, show (1 : Nat) ≤ 255 by omega, show (255 : Nat) ≤ 255 by omega⟩
          · exact hmem o h

/-- The open run of `collapseAux` stays within the cap. -/
theorem collapseAux_counts : ∀ (xs : List Nat) (v cnt : Nat), 1 ≤ cnt → cnt ≤ 255 →
    ∀ o ∈ collapseAux v cnt xs, 1 ≤ o.count ∧ o.count ≤ 255 := by
  intro xs
  induction xs with
  | nil =>
      intro v cnt h1 h2 o ho
      simp only [collapseAux, List.mem_singleton] at ho
      subst ho
      exact ⟨h1, h2⟩
  | cons x xs ih =>
      intro v cnt h1 h2 o ho
      rw [collapseAux] at ho
      by_cases hcap : cnt = 255
      · rw [if_pos hcap] at ho
        rcases List.mem_cons.mp ho with h | h
        · subst h
          exact ⟨show 1 ≤ cnt from h1, show cnt ≤ 255 from h2⟩
        · exact ih x 1 (by omega) (by omega) o h
      · rw [if_neg hcap] at ho
        by_cases hne : v ≠ x
        · rw [if_pos hne] at ho
          rcases List.mem_cons.mp ho with h | h
          · subst h
            exact ⟨show 1 ≤ cnt from h1, show cnt ≤ 255 from h2⟩
          · exact ih x 1 (by omega) (by omega) o h
        · rw [if_neg hne] at ho
          exact ih v (cnt + 1) (by omega) (by omega) o ho

/-- Maximal stretches collapse to the minimal run decomposition, continuing
from an open run of `cnt` copies. -/
theorem collapseAux_replicate : ∀ (L : Nat) (v cnt : Nat) (rest : List Nat),
    1 ≤ cnt → cnt ≤ 255 → (∀ y, rest.head? = some y → y ≠ v) →
    collapseAux v cnt (List.replicate L v ++ rest)
      = minimalRuns v (cnt + L) ++ collapseRuns rest := by
  intro L
  induction L with
  | zero =>
      intro v cnt rest h1 h2 hrest
      rw [List.replicate_zero, List.nil_append, Nat.add_zero]
      cases rest with
      | nil =>
          rw [collapseAux, minimalRuns_small v cnt h1 h2]
          rfl
      | cons x xs =>
          have hxv : x ≠ v := hrest x rfl
          have hvx : v ≠ x := fun h => hxv h.symm
          rw [collapseAux, minimalRuns_small v cnt h1 h2]
          by_cases hcap : cnt = 255
          · rw [if_pos hcap]
            rfl
          · rw [if_neg hcap, if_pos hvx]
            rfl
  | succ L ih =>
      intro v cnt rest h1 h2 hrest
      rw [List.replicate_succ, List.cons_append, collapseAux]
      by_cases hcap : cnt = 255
      · rw [if_pos hcap]
        rw [ih v 1 rest (by omega) (by omega) hrest]
        rw [minimalRuns_large v (cnt + (L + 1)) (by omega)]
        have harith : cnt + (L + 1) - 255 = 1 + L := by omega
        rw [harith, hcap]
        rfl
      · rw [if_neg hcap]
        have hvv : ¬ v ≠ v := fun h => h rfl
        rw [if_neg hvv]
        rw [ih v (cnt + 1) rest (by omega) (by omega) hrest]
        have harith : cnt + 1 + L = cnt + (L + 1) := by omega
        rw [harith]

/-- The collapsed runs cover the input exactly. -/
theorem collapseAux_flatten : ∀ (xs : List Nat) (v cnt : Nat),
    runsFlatten (collapseAux v cnt xs) = List.replicate cnt v ++ xs := by
  intro xs
  induction xs with
  | nil =>
      intro v cnt
      simp [collapseAux, runsFlatten]
  | cons x xs ih =>
      intro v cnt
      rw [collapseAux]
      by_cases hcap : cnt = 255
      · rw [if_pos hcap, runsFlatten, List.foldr_cons]
        have hrec := ih x 1
        rw [runsFlatten] at hrec
        rw [hrec, hcap]
        simp
      · rw [if_neg hcap]
        by_cases hne : v ≠ x
        · rw [if_pos hne, runsFlatten, List.foldr_cons]
          have hrec := ih x 1
          rw [runsFlatten] at hrec
          rw [hrec]
          simp
        · rw [if_neg hne]
          rw [ih v (cnt + 1)]
          have hx : x = v := by omega
          subst hx
          rw [List.replicate_succ' cnt x]
          simp

theorem collapseRuns_flatten (syms : List Nat) :
    runsFlatten (collapseRuns syms) = syms := by
  cases syms with
  | nil => rfl
  | cons x xs =>
      rw [collapseRuns, collapseAux_flatten xs x 1]
      simp

/-- C5: every run emitted by the collapser has its count in `[1, 255]`,
and a maximal stretch of `L ≥ 1` identical symbols (followed by a
different symbol or the end of input) collapses to exactly the minimal
run decomposition under the 255 cap: `⌈L / 255⌉` consecutive runs, each of
count at most 255, summing to `L`. -/
theorem run_cap_and_minimal_split (syms : List Nat) (v L : Nat) (rest : List Nat)
    (hL : 1 ≤ L) (hrest : ∀ y, rest.head? = some y → y ≠ v) :
    (∀ o ∈ collapseRuns syms, 1 ≤ o.count ∧ o.count ≤ 255) ∧
    collapseRuns (List.replicate L v ++ rest) = minimalRuns v L ++ collapseRuns rest ∧
    sumCounts (minimalRuns v L) = L ∧
    (minimalRuns v L).length = (L + 254) / 255 ∧
    (∀ o ∈ minimalRuns v L, o.count ≤ 255) := by
  obtain ⟨hsum, hlen, hmem⟩ := minimalRuns_spec v L hL
  refine ⟨?_, ?_, hsum, hlen, fun o ho => (hmem o ho).2.2⟩
  · intro o ho
    cases syms with
    | nil => simp [collapseRuns] at ho
    | cons x xs =>
        rw [collapseRuns] at ho
        exact collapseAux_counts xs x 1 (by omega) (by omega) o ho
  · cases L with
    | zero => omega
    | succ L =>
        rw [List.replicate_succ, List.cons_append, collapseRuns]
        rw [collapseAux_replicate L v 1 rest (by omega) (by omega) hrest]
        have harith : 1 + L = L + 1 := by omega
        rw [harith]

/-- Witness for C5: a stretch of 300 sevens splits into runs of 255 and
45. -/
theorem run_cap_and_minimal_split_witness :
    (∀ o ∈ collapseRuns [1, 1, 2], 1 ≤ o.count ∧ o.count ≤ 255) ∧
    collapseRuns (List.replicate 300 7 ++ [9]) = minimalRuns 7 300 ++ collapseRuns [9] ∧
    sumCounts (minimalRuns 7 300) = 300 ∧
    (minimalRuns 7 300).length = (300 + 254) / 255 ∧
    (∀ o ∈ minimalRuns 7 300, o.count ≤ 255) :=
  run_cap_and_minimal_split [1, 1, 2] 7 300 [9] (by omega) (by decide)

/-! ### The alphabet sort -/

/-- The per-pair guarantee of `std::is_sorted` for the comparator
`a.freq > b.freq`: no adjacent pair strictly increases in frequency. -/
def sortRel (a b : Letter) : Prop := ¬ b.freq > a.freq

instance (a b : Letter) : Decidable (sortRel a b) := by
  unfold sortRel; infer_instance

theorem insertLetter_perm (l : Letter) : ∀ (ls : List Letter),
    (insertLetter l ls).Perm (l :: ls) := by
  intro ls
  induction ls with
  | nil => rfl
  | cons x xs ih =>
      rw [insertLetter]
      by_cases hf : l.freq > x.freq
      · rw [if_pos hf]
      · rw [if_neg hf]
        exact (ih.cons x).trans (List.Perm.swap l x xs)

theorem insertLetter_headOption (l : Letter) (ls : List Letter) :
    (insertLetter l ls).head? = some l ∨ (insertLetter l ls).head? = ls.head? := by
  cases ls with
  | nil => left; rfl
  | cons x xs =>
      rw [insertLetter]
      by_cases hf : l.freq > x.freq
      · rw [if_pos hf]; left; rfl
      · rw [if_neg hf]; right; rfl

theorem insertLetter_chain (l : Letter) : ∀ (ls : List Letter),
    List.Chain' sortRel ls → List.Chain' sortRel (insertLetter l ls) := by
  intro ls
  induction ls with
  | nil => intro _; simp [insertLetter]
  | cons x xs ih =>
      intro h
      obtain ⟨hhead, htail⟩ := List.chain'_cons'.mp h
      rw [insertLetter]
      by_cases hf : l.freq > x.freq
      · rw [if_pos hf]
        refine List.chain'_cons'.mpr ⟨?_, h⟩
        intro y hy
        simp only [List.head?_cons, Option.mem_def, Option.some_inj] at hy
        subst hy
        rw [sortRel]
        omega
      · rw [if_neg hf]
        refine List.chain'_cons'.mpr ⟨?_, ih htail⟩
        intro y hy
        rcases insertLetter_headOption l xs with hc | hc
        · rw [hc] at hy
          simp only [Option.mem_def, Option.some_inj] at hy
          subst hy
          rw [sortRel]
          omega
        · rw [hc] at hy
          exact hhead y hy

theorem sortLetters_aux : ∀ (ls acc : List Letter),
    List.Chain' sortRel acc →
    (ls.foldl (fun acc l => insertLetter l acc) acc).Perm (acc ++ ls) ∧
    List.Chain' sortRel (ls.foldl (fun acc l => insertLetter l acc) acc) := by
  intro ls
  induction ls with
  | nil =>
      intro acc hacc
      exact ⟨by simp, hacc⟩
  | cons x xs ih =>
      intro acc hacc
      rw [List.foldl_cons]
      obtain ⟨hperm, hchain⟩ := ih (insertLetter x acc) (insertLetter_chain x acc hacc)
      refine ⟨?_, hchain⟩
      refine hperm.trans ?_
      refine ((insertLetter_perm x acc).append_right xs).trans ?_
      exact List.perm_middle.symm

/-- C4 (amended): the embedded sort satisfies exactly the guarantee the
C++ standard gives the `std::sort` call of `encode`: the final alphabet is
a permutation of the folded frequency table that never places a strictly
higher frequency after a lower one.  The order of equal-frequency entries
is implementation-defined — `std::sort` is not a stable sort — so nothing
stronger holds for the code. -/
theorem alphabet_sort_conforms (syms : List Nat) :
    IsSortResult (buildAlphabet (collapseRuns syms))
      (sortLetters (buildAlphabet (collapseRuns syms))) := by
  obtain ⟨hperm, hchain⟩ :=
    sortLetters_aux (buildAlphabet (collapseRuns syms)) [] List.chain'_nil
  exact ⟨by simpa using hperm.symm, hchain⟩

/-- Counterexample to C4 as stated: on input bytes `[65, 66]` the folded
table lists 65 (seen first) before 66, both with frequency 1, yet the
swapped order is an equally conforming `std::sort` result — the source
uses `std::sort`, whose order among equal-frequency entries is
implementation-defined, so the claimed first-seen tie order is not
guaranteed by the code. -/
theorem sort_stability_not_guaranteed :
    buildAlphabet (collapseRuns [65, 66]) = [⟨65, 1⟩, ⟨66, 1⟩] ∧
    IsSortResult (buildAlphabet (collapseRuns [65, 66])) [⟨66, 1⟩, ⟨65, 1⟩] ∧
    ([⟨66, 1⟩, ⟨65, 1⟩] : List Letter).head? = some ⟨66, 1⟩ ∧
    (⟨65, 1⟩ : Letter).freq = (⟨66, 1⟩ : Letter).freq := by
  have htab : buildAlphabet (collapseRuns [65, 66]) = [⟨65, 1⟩, ⟨66, 1⟩] := by decide
  refine ⟨htab, ⟨?_, ?_⟩, rfl, rfl⟩
  · rw [htab]
    exact List.Perm.swap (⟨66, 1⟩ : Letter) (⟨65, 1⟩ : Letter) ([] : List Letter)
  · refine List.chain'_cons.mpr ⟨?_, List.chain'_singleton _⟩
    decide

/-! ### Writer characterisation

The writer state is characterised positionally by the bit list written so
far: the flushed bytes hold the first `8 * out.length` bits (LSB first
within each byte), the working byte the rest, and both bit counters track
the list length. -/

def WriterRep (B : List Bool) (w : WriterState) : Prop :=
  w.written_bits_on_result_byte = B.length % 8 ∧
  w.out.length = B.length / 8 ∧
  w.written_bits = B.length ∧
  (∀ k, k < B.length →
    (if k / 8 < w.out.length then (w.out.getD (k / 8) 0).testBit (k % 8)
     else w.result_byte.testBit (k % 8)) = B.getD k false) ∧
  (∀ i, w.written_bits_on_result_byte ≤ i → w.result_byte.testBit i = false)

theorem writerRep_init : WriterRep [] ⟨[], 0, 0, 0⟩ := by
  refine ⟨rfl, rfl, rfl, ?_, ?_⟩
  · intro k hk
    simp at hk
  · intro i _
    simp

theorem putBit_flush (w : WriterState) (b : Bool)
    (h : w.written_bits_on_result_byte + 1 = 8) :
    putBit w b = ⟨w.out ++ [(if b then write_bit w else w).result_byte], 0, 0,
      w.written_bits + 1⟩ := by
  rw [putBit, check_bit]
  cases b <;> simp [write_bit, h]

theorem putBit_noflush (w : WriterState) (b : Bool)
    (h : ¬ w.written_bits_on_result_byte + 1 = 8) :
    putBit w b = ⟨w.out, (if b then write_bit w else w).result_byte,
      w.written_bits_on_result_byte + 1, w.written_bits + 1⟩ := by
  rw [putBit, check_bit]
  cases b <;> simp [write_bit, h]

theorem putBit_rep (B : List Bool) (w : WriterState) (b : Bool) (h : WriterRep B w) :
    WriterRep (B ++ [b]) (putBit w b) := by
  obtain ⟨hcur, hout, hwb, hbits, hhigh⟩ := h
  have hcur8 : w.written_bits_on_result_byte < 8 := by omega
  have hLsplit : B.length = 8 * w.out.length + w.written_bits_on_result_byte := by omega
  have hrb : ∀ i, (if b then write_bit w else w).result_byte.testBit i
      = (if i = w.written_bits_on_result_byte then b else w.result_byte.testBit i) := by
    intro i
    cases b with
    | false =>
        simp only [Bool.false_eq_true, if_false]
        by_cases hi : i = w.written_bits_on_result_byte
        · rw [if_pos hi, hi]
          exact hhigh _ (le_refl _)
        · rw [if_neg hi]
    | true =>
        simp only [if_true, write_bit, Nat.testBit_or, Nat.shiftLeft_eq, one_mul,
          Nat.testBit_two_pow]
        by_cases hi : i = w.written_bits_on_result_byte
        · subst hi
          simp
        · have hi2 : ¬ w.written_bits_on_result_byte = i := fun hx => hi hx.symm
          simp [hi, hi2]
  have hlenB : (B ++ [b]).length = B.length + 1 := by simp
  by_cases hflush : w.written_bits_on_result_byte + 1 = 8
  · rw [putBit_flush w b hflush]
    refine ⟨?_, ?_, ?_, ?_, ?_⟩
    · show 0 = (B ++ [b]).length % 8
      rw [hlenB]
      omega
    · show (w.out ++ [(if b then write_bit w else w).result_byte]).length = (B ++ [b]).length / 8
      rw [hlenB]
      simp only [List.length_append, List.length_singleton]
      omega
    · show w.written_bits + 1 = (B ++ [b]).length
      rw [hlenB]
      omega
    · intro k hk
      rw [hlenB] at hk
      simp only [List.length_append, List.length_singleton]
      have hkdiv : k / 8 < w.out.length + 1 := by omega
      rw [if_pos hkdiv]
      by_cases hkin : k / 8 < w.out.length
      · rw [List.getD_append w.out [(if b then write_bit w else w).result_byte] 0 (k / 8) hkin]
        have hb := hbits k (by omega)
        rw [if_pos hkin] at hb
        rw [hb, List.getD_append B [b] false k (by omega)]
      · have hkeq : k / 8 = w.out.length := by omega
        rw [List.getD_append_right w.out [(if b then write_bit w else w).result_byte] 0 (k / 8)
          (by omega), hkeq]
        simp only [Nat.sub_self, List.getD_cons_zero]
        rw [hrb (k % 8)]
        by_cases hklast : k = B.length
        · rw [if_pos (by omega), List.getD_append_right B [b] false k (by omega), hklast]
          simp
        · rw [if_neg (by omega)]
          have hb := hbits k (by omega)
          rw [if_neg (by omega)] at hb
          rw [hb, List.getD_append B [b] false k (by omega)]
    · intro i _
      show Nat.testBit 0 i = false
      simp
  · rw [putBit_noflush w b hflush]
    refine ⟨?_, ?_, ?_, ?_, ?_⟩
    · show w.written_bits_on_result_byte + 1 = (B ++ [b]).length % 8
      rw [hlenB]
      omega
    · show w.out.length = (B ++ [b]).length / 8
      rw [hlenB]
      omega
    · show w.written_bits + 1 = (B ++ [b]).length
      rw [hlenB]
      omega
    · intro k hk
      rw [hlenB] at hk
      show (if k / 8 < w.out.length then (w.out.getD (k / 8) 0).testBit (k % 8)
        else ((if b then write_bit w else w).result_byte).testBit (k % 8)) = (B ++ [b]).getD k false
      by_cases hkin : k / 8 < w.out.length
      · rw [if_pos hkin]
        have hb := hbits k (by omega)
        rw [if_pos hkin] at hb
        rw [hb, List.getD_append B [b] false k (by omega)]
      · rw [if_neg hkin, hrb (k % 8)]
        by_cases hklast : k = B.length
        · rw [if_pos (by omega), List.getD_append_right B [b] false k (by omega), hklast]
          simp
        · rw [if_neg (by omega)]
          have hb := hbits k (by omega)
          rw [if_neg hkin] at hb
          rw [hb, List.getD_append B [b] false k (by omega)]
    · intro i hi
      show ((if b then write_bit w else w).result_byte).testBit i = false
      have hi2 : w.written_bits_on_result_byte + 1 ≤ i := hi
      rw [hrb i, if_neg (by omega)]
      exact hhigh i (by omega)

theorem writeBits_rep : ∀ (bs B : List Bool) (w : WriterState), WriterRep B w →
    WriterRep (B ++ bs) (writeBits w bs) := by
  intro bs
  induction bs with
  | nil =>
      intro B w h
      simpa [writeBits] using h
  | cons b bs ih =>
      intro B w h
      have h2 := ih (B ++ [b]) (putBit w b) (putBit_rep B w b h)
      rw [writeBits, List.foldl_cons]
      rw [writeBits] at h2
      simpa using h2

/-- Bits of the flushed output, positionally. -/
theorem flushedOut_spec (B : List Bool) (w : WriterState) (h : WriterRep B w) :
    (flushedOut w).length = (B.length + 7) / 8 ∧
    w.written_bits = B.length ∧
    (∀ k, k < B.length →
      ((flushedOut w).getD (k / 8) 0).testBit (k % 8) = B.getD k false) := by
  obtain ⟨hcur, hout, hwb, hbits, hhigh⟩ := h
  have hcur8 : w.written_bits_on_result_byte < 8 := by omega
  refine ⟨?_, hwb, ?_⟩
  · rw [flushedOut]
    by_cases hpos : 0 < w.written_bits_on_result_byte
    · rw [if_pos hpos]
      simp only [List.length_append, List.length_singleton]
      omega
    · rw [if_neg hpos]
      simp only [List.append_nil]
      omega
  · intro k hk
    rw [flushedOut]
    have hb := hbits k hk
    by_cases hkin : k / 8 < w.out.length
    · rw [if_pos hkin] at hb
      by_cases hpos : 0 < w.written_bits_on_result_byte
      · rw [if_pos hpos, List.getD_append w.out [w.result_byte] 0 (k / 8) hkin]
        exact hb
      · rw [if_neg hpos]
        simpa using hb
    · have hkeq : k / 8 = w.out.length := by omega
      have hpos : 0 < w.written_bits_on_result_byte := by omega
      rw [if_pos hpos, List.getD_append_right w.out [w.result_byte] 0 (k / 8) (by omega), hkeq]
      simp only [Nat.sub_self, List.getD_cons_zero]
      rw [if_neg hkin] at hb
      exact hb

/-! ### The emitted bit list -/

def joinAll {α : Type} : List (List α) → List α
  | [] => []
  | b :: bs => b ++ joinAll bs

theorem joinAll_append {α : Type} : ∀ (xs ys : List (List α)),
    joinAll (xs ++ ys) = joinAll xs ++ joinAll ys := by
  intro xs ys
  induction xs with
  | nil => rfl
  | cons x xs ih => simp [joinAll, ih]

/-- The bits `method1` emits for one path: `max_depth_bits` depth bits (LSB
first) then `depth` path bits. -/
def occBits (mdb : Nat) (pi : PathInfo) : List Bool :=
  (List.range mdb).map (fun i => pi.depth.testBit i)
    ++ (List.range pi.depth).map (fun i => pi.bit_path.testBit i)

/-- The whole packed path bitstream of `encode`. -/
def bodyBits (mdb : Nat) (t : BinaryTree) (occs : List Occurrence) : List Bool :=
  joinAll (occs.map (fun o =>
    joinAll (List.replicate o.count (occBits mdb (pathInfoFor t o.letter_value)))))

theorem writeBits_append (w : WriterState) (xs ys : List Bool) :
    writeBits w (xs ++ ys) = writeBits (writeBits w xs) ys := by
  rw [writeBits, writeBits, writeBits, List.foldl_append]

theorem method1_eq (mdb : Nat) (pi : PathInfo) (w : WriterState) :
    method1 mdb pi w = writeBits w (occBits mdb pi) := by
  rw [method1, occBits, writeBits, List.foldl_append, List.foldl_map, List.foldl_map]

theorem replicate_fold_eq (mdb : Nat) (pi : PathInfo) : ∀ (c : Nat) (w : WriterState),
    (List.range c).foldl (fun w _ => method1 mdb pi w) w
      = writeBits w (joinAll (List.replicate c (occBits mdb pi))) := by
  intro c
  induction c with
  | zero =>
      intro w
      rfl
  | succ c ih =>
      intro w
      rw [List.range_succ, List.foldl_append, List.foldl_cons, List.foldl_nil, ih w,
        method1_eq, List.replicate_succ' c, joinAll_append, writeBits_append]
      simp [joinAll]

theorem encodeBody_eq (mdb : Nat) (t : BinaryTree) : ∀ (occs : List Occurrence)
    (w : WriterState), encodeBody mdb t occs w = writeBits w (bodyBits mdb t occs) := by
  intro occs
  induction occs with
  | nil =>
      intro w
      rfl
  | cons o occs ih =>
      intro w
      rw [encodeBody, List.foldl_cons, bodyBits, List.map_cons]
      rw [show joinAll ((joinAll (List.replicate o.count (occBits mdb (pathInfoFor t o.letter_value))))
        :: occs.map (fun o => joinAll (List.replicate o.count (occBits mdb (pathInfoFor t o.letter_value)))))
        = joinAll (List.replicate o.count (occBits mdb (pathInfoFor t o.letter_value)))
          ++ bodyBits mdb t occs from rfl]
      rw [writeBits_append, ← replicate_fold_eq]
      exact ih _

/-! ### Encode, named pieces -/

def encAlphabet (syms : List Nat) : List Letter := sortLetters (buildAlphabet (collapseRuns syms))

def encTree (syms : List Nat) : BinaryTree :=
  buildTree ((encAlphabet syms).map (fun l => (l.value : Int)))

def encMdb (syms : List Nat) : Nat := BitsNeeded (encTree syms).root.height

def encBits (syms : List Nat) : List Bool :=
  bodyBits (encMdb syms) (encTree syms) (collapseRuns syms)

theorem encodeSymbols_eq (syms : List Nat) :
    encodeSymbols syms
      = [encMdb syms % 256, sizeByte (encAlphabet syms).length]
        ++ (encAlphabet syms).map (fun l => l.value % 256)
        ++ flushedOut (writeBits ⟨[], 0, 0, 0⟩ (encBits syms))
        ++ toLE4 (writeBits ⟨[], 0, 0, 0⟩ (encBits syms)).written_bits := by
  rw [encodeSymbols, encodeBody_eq]
  rfl

/-- The little-endian counter field read back. -/
def trailingCounter (data : List Nat) : Nat :=
  data.getD (data.length - 4) 0 + 256 * data.getD (data.length - 3) 0
    + 65536 * data.getD (data.length - 2) 0 + 16777216 * data.getD (data.length - 1) 0

theorem trailingCounter_append (xs : List Nat) (n : Nat) :
    trailingCounter (xs ++ toLE4 n) = n % 2 ^ 32 := by
  have hlen : (xs ++ toLE4 n).length = xs.length + 4 := by simp [toLE4]
  have hget : ∀ i, i < 4 → (xs ++ toLE4 n).getD (xs.length + i) 0 = (toLE4 n).getD i 0 := by
    intro i hi
    rw [List.getD_append_right xs (toLE4 n) 0 (xs.length + i) (by omega)]
    congr 1
    omega
  rw [trailingCounter, hlen]
  have h0 := hget 0 (by omega)
  have h1 := hget 1 (by omega)
  have h2 := hget 2 (by omega)
  have h3 := hget 3 (by omega)
  rw [show xs.length + 4 - 4 = xs.length + 0 from by omega,
    show xs.length + 4 - 3 = xs.length + 1 from by omega,
    show xs.length + 4 - 2 = xs.length + 2 from by omega,
    show xs.length + 4 - 1 = xs.length + 3 from by omega,
    h0, h1, h2, h3]
  rw [toLE4]
  simp only [List.getD_cons_zero, List.getD_cons_succ]
  omega

/-! ### Reader characterisation -/

/-- Bit `k` of the bit region starting at byte `start` of `data`, LSB
first within each byte — the decoder's addressing. -/
def bitAt (data : List Nat) (start k : Nat) : Bool :=
  (data.getD (start + k / 8) 0).testBit (k % 8)

/-- The canonical reader state after consuming `k` bits of the region. -/
def posState (start k : Nat) : ReaderState := ⟨start + k / 8, k % 8, k⟩

theorem read_bit_step (data : List Nat) (start k : Nat) :
    read_bit data (posState start k)
      = (if bitAt data start k then 1 else 0, posState start (k + 1)) := by
  rw [read_bit, bitAt, posState, posState]
  by_cases h8 : k % 8 + 1 = 8
  · rw [if_pos h8]
    simp only [Prod.mk.injEq, ReaderState.mk.injEq]
    refine ⟨trivial, by omega, by omega, trivial⟩
  · rw [if_neg h8]
    simp only [Prod.mk.injEq, ReaderState.mk.injEq]
    refine ⟨trivial, by omega, by omega, trivial⟩

/-- Value reconstructed by the depth-reading loop. -/
def depthAcc (data : List Nat) (start k : Nat) : Nat → Nat
  | 0 => 0
  | m + 1 => depthAcc data start k m ||| ((if bitAt data start (k + m) then 1 else 0) <<< m)

theorem testBit_depthAcc (data : List Nat) (start k : Nat) : ∀ (m j : Nat),
    (depthAcc data start k m).testBit j
      = (decide (j < m) && bitAt data start (k + j)) := by
  intro m
  induction m with
  | zero =>
      intro j
      simp [depthAcc]
  | succ m ih =>
      intro j
      rw [depthAcc, Nat.testBit_or, ih j]
      by_cases hb : bitAt data start (k + m)
      · rw [if_pos hb]
        simp only [Nat.shiftLeft_eq, one_mul, Nat.testBit_two_pow]
        by_cases hj : j = m
        · subst hj
          simp [hb]
        · have hmj : ¬ m = j := fun hx => hj hx.symm
          simp only [decide_eq_false hmj, Bool.or_false]
          by_cases hjm : j < m
          · simp [hjm, Nat.lt_succ_of_lt hjm]
          · have hj1 : ¬ j < m + 1 := by omega
            simp [hjm, hj1]
      · rw [if_neg hb]
        simp only [Nat.zero_shiftLeft, Nat.zero_testBit, Bool.or_false]
        by_cases hj : j = m
        · subst hj
          simp [hb]
        · by_cases hjm : j < m
          · simp [hjm, Nat.lt_succ_of_lt hjm]
          · have : ¬ j < m + 1 := by omega
            simp [hjm, this]

theorem readDepth_spec (data : List Nat) (start : Nat) : ∀ (mdb k : Nat),
    readDepth data mdb (posState start k)
      = (depthAcc data start k mdb, posState start (k + mdb)) := by
  intro mdb
  induction mdb with
  | zero =>
      intro k
      rw [readDepth]
      simp [depthAcc, posState]
  | succ mdb ih =>
      intro k
      rw [readDepth, List.range_succ, List.foldl_append, List.foldl_cons, List.foldl_nil]
      have hprev := ih k
      rw [readDepth] at hprev
      rw [hprev]
      simp only [read_bit_step data start (k + mdb), depthAcc]
      rw [show k + (mdb + 1) = k + mdb + 1 from by omega]

/-- If the depth bits in the stream spell a value below `2 ^ mdb`, the
loop reconstructs it exactly. -/
theorem depthAcc_eq (data : List Nat) (start k mdb d : Nat) (hd : d < 2 ^ mdb)
    (hbits : ∀ i, i < mdb → bitAt data start (k + i) = d.testBit i) :
    depthAcc data start k mdb = d := by
  refine Nat.eq_of_testBit_eq ?_
  intro j
  rw [testBit_depthAcc]
  by_cases hj : j < mdb
  · rw [decide_eq_true hj, Bool.true_and]
    exact hbits j hj
  · rw [decide_eq_false hj, Bool.false_and]
    have hdj : d < 2 ^ j := lt_of_lt_of_le hd (Nat.pow_le_pow_right (by omega) (by omega))
    exact (Nat.testBit_lt_two_pow hdj).symm

/-- Bitset reconstructed by the path-reading loop. -/
def pathAcc (data : List Nat) (start k : Nat) : Nat → Nat
  | 0 => 0
  | m + 1 => assignBit (pathAcc data start k m) m (bitAt data start (k + m))

theorem testBit_pathAcc (data : List Nat) (start k : Nat) : ∀ (m j : Nat), j < m →
    (pathAcc data start k m).testBit j = bitAt data start (k + j) := by
  intro m
  induction m with
  | zero => intro j hj; omega
  | succ m ih =>
      intro j hj
      rw [pathAcc, testBit_assignBit]
      by_cases hjm : j = m
      · rw [if_pos hjm, hjm]
      · rw [if_neg hjm]
        exact ih j (by omega)

theorem decide_bit_eq (c : Bool) : (decide ((if c then 1 else 0) = 1)) = c := by
  cases c <;> simp

theorem readPathBits_spec (data : List Nat) (start : Nat) : ∀ (dep k : Nat),
    readPathBits data dep (posState start k)
      = (pathAcc data start k dep, posState start (k + dep)) := by
  intro dep
  induction dep with
  | zero =>
      intro k
      rw [readPathBits]
      simp [pathAcc, posState]
  | succ dep ih =>
      intro k
      rw [readPathBits, List.range_succ, List.foldl_append, List.foldl_cons, List.foldl_nil]
      have hprev := ih k
      rw [readPathBits] at hprev
      rw [hprev]
      simp only [read_bit_step data start (k + dep), pathAcc]
      rw [decide_bit_eq]
      rw [show k + (dep + 1) = k + dep + 1 from by omega]

/-! ### Alphabet bookkeeping -/

theorem addOccurrence_values (o : Occurrence) : ∀ (ls : List Letter),
    (addOccurrence ls o).map (fun l => l.value)
      = if o.letter_value ∈ ls.map (fun l => l.value) then ls.map (fun l => l.value)
        else ls.map (fun l => l.value) ++ [o.letter_value] := by
  intro ls
  induction ls with
  | nil => simp [addOccurrence]
  | cons l ls ih =>
      rw [addOccurrence]
      by_cases hv : l.value = o.letter_value
      · rw [if_pos hv]
        have hmem : o.letter_value ∈ (l :: ls).map (fun l => l.value) := by
          simp [hv.symm]
        rw [if_pos hmem]
        simp
      · rw [if_neg hv, List.map_cons, List.map_cons, ih]
        by_cases hmem : o.letter_value ∈ ls.map (fun l => l.value)
        · rw [if_pos hmem, if_pos (by simp [hmem])]
        · rw [if_neg hmem, if_neg ?_]
          · simp
          · simp only [List.map_cons, List.mem_cons]
            rintro (h | h)
            · exact hv (h.symm)
            · exact hmem h

theorem foldl_addOccurrence_nodup : ∀ (os : List Occurrence) (acc : List Letter),
    (acc.map (fun l => l.value)).Nodup →
    ((os.foldl addOccurrence acc).map (fun l => l.value)).Nodup := by
  intro os
  induction os with
  | nil => intro acc h; exact h
  | cons o os ih =>
      intro acc h
      rw [List.foldl_cons]
      refine ih (addOccurrence acc o) ?_
      rw [addOccurrence_values]
      by_cases hmem : o.letter_value ∈ acc.map (fun l => l.value)
      · rw [if_pos hmem]; exact h
      · rw [if_neg hmem]
        rw [List.nodup_append]
        exact ⟨h, List.nodup_singleton _, by
          intro a ha hb
          simp only [List.mem_singleton] at hb
          subst hb
          exact hmem ha⟩

theorem buildAlphabet_values_nodup (os : List Occurrence) :
    ((buildAlphabet os).map (fun l => l.value)).Nodup :=
  foldl_addOccurrence_nodup os [] (by simp)

theorem addOccurrence_mem_self (o : Occurrence) (ls : List Letter) :
    o.letter_value ∈ (addOccurrence ls o).map (fun l => l.value) := by
  rw [addOccurrence_values]
  by_cases hmem : o.letter_value ∈ ls.map (fun l => l.value)
  · rwa [if_pos hmem]
  · rw [if_neg hmem]
    simp

theorem addOccurrence_mem_mono (o : Occurrence) (ls : List Letter) (u : Nat)
    (h : u ∈ ls.map (fun l => l.value)) :
    u ∈ (addOccurrence ls o).map (fun l => l.value) := by
  rw [addOccurrence_values]
  by_cases hmem : o.letter_value ∈ ls.map (fun l => l.value)
  · rwa [if_pos hmem]
  · rw [if_neg hmem]
    simp [h]

theorem foldl_addOccurrence_mem : ∀ (os : List Occurrence) (acc : List Letter) (u : Nat),
    (u ∈ acc.map (fun l => l.value) ∨ ∃ o ∈ os, o.letter_value = u) →
    u ∈ ((os.foldl addOccurrence acc).map (fun l => l.value)) := by
  intro os
  induction os with
  | nil =>
      intro acc u h
      rcases h with h | ⟨o, ho, _⟩
      · exact h
      · simp at ho
  | cons o os ih =>
      intro acc u h
      rw [List.foldl_cons]
      refine ih (addOccurrence acc o) u ?_
      rcases h with h | ⟨o2, ho2, hu⟩
      · exact Or.inl (addOccurrence_mem_mono o acc u h)
      · rcases List.mem_cons.mp ho2 with h2 | h2
        · subst h2
          subst hu
          exact Or.inl (addOccurrence_mem_self o2 acc)
        · exact Or.inr ⟨o2, h2, hu⟩

theorem buildAlphabet_mem (os : List Occurrence) (o : Occurrence) (ho : o ∈ os) :
    o.letter_value ∈ (buildAlphabet os).map (fun l => l.value) :=
  foldl_addOccurrence_mem os [] o.letter_value (Or.inr ⟨o, ho, rfl⟩)

theorem foldl_addOccurrence_sub : ∀ (os : List Occurrence) (acc : List Letter) (u : Nat),
    u ∈ ((os.foldl addOccurrence acc).map (fun l => l.value)) →
    u ∈ acc.map (fun l => l.value) ∨ ∃ o ∈ os, o.letter_value = u := by
  intro os
  induction os with
  | nil =>
      intro acc u h
      exact Or.inl h
  | cons o os ih =>
      intro acc u h
      rw [List.foldl_cons] at h
      rcases ih (addOccurrence acc o) u h with h2 | ⟨o2, ho2, hu⟩
      · rw [addOccurrence_values] at h2
        by_cases hmem : o.letter_value ∈ acc.map (fun l => l.value)
        · rw [if_pos hmem] at h2
          exact Or.inl h2
        · rw [if_neg hmem] at h2
          rcases List.mem_append.mp h2 with h3 | h3
          · exact Or.inl h3
          · simp only [List.mem_singleton] at h3
            exact Or.inr ⟨o, by simp, h3.symm⟩
      · exact Or.inr ⟨o2, by simp [ho2], hu⟩

theorem buildAlphabet_sub (os : List Occurrence) (u : Nat)
    (h : u ∈ (buildAlphabet os).map (fun l => l.value)) :
    ∃ o ∈ os, o.letter_value = u := by
  rcases foldl_addOccurrence_sub os [] u h with h2 | h2
  · simp at h2
  · exact h2

theorem collapseAux_letters : ∀ (xs : List Nat) (v cnt : Nat) (o : Occurrence),
    o ∈ collapseAux v cnt xs → o.letter_value = v ∨ o.letter_value ∈ xs := by
  intro xs
  induction xs with
  | nil =>
      intro v cnt o ho
      simp only [collapseAux, List.mem_singleton] at ho
      subst ho
      exact Or.inl rfl
  | cons x xs ih =>
      intro v cnt o ho
      rw [collapseAux] at ho
      by_cases hcap : cnt = 255
      · rw [if_pos hcap] at ho
        rcases List.mem_cons.mp ho with h | h
        · subst h; exact Or.inl rfl
        · rcases ih x 1 o h with h2 | h2
          · exact Or.inr (by simp [h2])
          · exact Or.inr (by simp [h2])
      · rw [if_neg hcap] at ho
        by_cases hne : v ≠ x
        · rw [if_pos hne] at ho
          rcases List.mem_cons.mp ho with h | h
          · subst h; exact Or.inl rfl
          · rcases ih x 1 o h with h2 | h2
            · exact Or.inr (by simp [h2])
            · exact Or.inr (by simp [h2])
        · rw [if_neg hne] at ho
          rcases ih v (cnt + 1) o ho with h2 | h2
          · exact Or.inl h2
          · exact Or.inr (by simp [h2])

theorem collapseRuns_letters (syms : List Nat) (o : Occurrence)
    (ho : o ∈ collapseRuns syms) : o.letter_value ∈ syms := by
  cases syms with
  | nil => simp [collapseRuns] at ho
  | cons x xs =>
      rw [collapseRuns] at ho
      rcases collapseAux_letters xs x 1 o ho with h | h
      · simp [h]
      · simp [h]

theorem sortLetters_perm (ls : List Letter) : (sortLetters ls).Perm ls := by
  have h := (sortLetters_aux ls [] List.chain'_nil).1
  simpa [sortLetters] using h

theorem encAlphabet_values_nodup (syms : List Nat) :
    ((encAlphabet syms).map (fun l => l.value)).Nodup := by
  have hperm := (sortLetters_perm (buildAlphabet (collapseRuns syms))).map
    (fun l => l.value)
  exact hperm.nodup_iff.mpr (buildAlphabet_values_nodup (collapseRuns syms))

theorem encAlphabet_mem (syms : List Nat) (o : Occurrence) (ho : o ∈ collapseRuns syms) :
    o.letter_value ∈ (encAlphabet syms).map (fun l => l.value) := by
  have hperm := (sortLetters_perm (buildAlphabet (collapseRuns syms))).map
    (fun l => l.value)
  exact hperm.mem_iff.mpr (buildAlphabet_mem (collapseRuns syms) o ho)

theorem encAlphabet_sub (syms : List Nat) (u : Nat)
    (h : u ∈ (encAlphabet syms).map (fun l => l.value)) : u ∈ syms := by
  have hperm := (sortLetters_perm (buildAlphabet (collapseRuns syms))).map
    (fun l => l.value)
  obtain ⟨o, ho, hu⟩ := buildAlphabet_sub (collapseRuns syms) u (hperm.mem_iff.mp h)
  rw [← hu]
  exact collapseRuns_letters syms o ho

theorem nodup_lt_length_le (ls : List Nat) (hnd : ls.Nodup) (hlt : ∀ x ∈ ls, x < 256) :
    ls.length ≤ 256 := by
  have hcard : ls.toFinset.card = ls.length := List.toFinset_card_of_nodup hnd
  have hsub : ls.toFinset ⊆ Finset.range 256 := by
    intro x hx
    rw [Finset.mem_range]
    exact hlt x (List.mem_toFinset.mp hx)
  have := Finset.card_le_card hsub
  rw [hcard, Finset.card_range] at this
  exact this

theorem encAlphabet_length_le (syms : List Nat) (h256 : ∀ b ∈ syms, b < 256) :
    (encAlphabet syms).length ≤ 256 := by
  have hlen : ((encAlphabet syms).map (fun l => l.value)).length = (encAlphabet syms).length :=
    List.length_map _ _
  rw [← hlen]
  refine nodup_lt_length_le _ (encAlphabet_values_nodup syms) ?_
  intro x hx
  exact h256 x (encAlphabet_sub syms x hx)

theorem collapseAux_ne_nil (xs : List Nat) (v cnt : Nat) : collapseAux v cnt xs ≠ [] := by
  induction xs generalizing v cnt with
  | nil => simp [collapseAux]
  | cons x xs ih =>
      rw [collapseAux]
      by_cases hcap : cnt = 255
      · rw [if_pos hcap]; simp
      · rw [if_neg hcap]
        by_cases hne : v ≠ x
        · rw [if_pos hne]; simp
        · rw [if_neg hne]; exact ih v (cnt + 1)

theorem encAlphabet_ne_nil (syms : List Nat) (hne : syms ≠ []) :
    encAlphabet syms ≠ [] := by
  cases syms with
  | nil => exact absurd rfl hne
  | cons x xs =>
      have h1 : collapseRuns (x :: xs) ≠ [] := by
        rw [collapseRuns]
        exact collapseAux_ne_nil xs x 1
      obtain ⟨o, ho⟩ : ∃ o, o ∈ collapseRuns (x :: xs) := by
        cases hc : collapseRuns (x :: xs) with
        | nil => exact absurd hc h1
        | cons a as => exact ⟨a, by simp [hc]⟩
      have hmem := encAlphabet_mem (x :: xs) o ho
      intro hempty
      rw [hempty] at hmem
      simp at hmem

/-- `height` is bounded by the node count. -/
theorem height_lt_size : ∀ (n : Node), n ≠ Node.nil → n.height < n.size := by
  intro n
  induction n with
  | nil => intro h; exact absurd rfl h
  | node x l r ihl ihr =>
      intro _
      rw [Node.height, Node.size]
      have hl : (if l = Node.nil then 0 else l.height + 1) ≤ l.size := by
        by_cases hnil : l = Node.nil
        · simp [hnil]
        · rw [if_neg hnil]
          exact ihl hnil
      have hr : (if r = Node.nil then 0 else r.height + 1) ≤ r.size := by
        by_cases hnil : r = Node.nil
        · simp [hnil]
        · rw [if_neg hnil]
          exact ihr hnil
      omega

/-! ### Depth-fit facts for the encoder -/

theorem buildTree_size (vs : List Int) (hne : vs ≠ []) (h0 : ∀ x ∈ vs, 0 ≤ x) :
    (buildTree vs).root.size = vs.length := by
  cases vs with
  | nil => exact absurd rfl hne
  | cons w vs =>
      have hw : (0 : Int) ≤ w := h0 w (by simp)
      have hfirst : (BinaryTree.empty.insert w).root = Node.node w Node.nil Node.nil := by
        rw [BinaryTree.insert]
        simp [BinaryTree.empty, INVALID]
      have hCfirst : (BinaryTree.empty.insert w).root.Canon := by
        rw [hfirst]
        exact ⟨by simp [Node.size], by simp [Node.size], trivial, trivial⟩
      rw [buildTree, List.foldl_cons]
      obtain ⟨_, hS, _⟩ := foldl_insert_state vs (BinaryTree.empty.insert w)
        ⟨w, Node.nil, Node.nil, hfirst, by rw [INVALID]; omega⟩ hCfirst
      rw [hS, hfirst]
      simp only [Node.size, List.length_cons]
      omega

theorem encTree_height_le (syms : List Nat) (h256 : ∀ b ∈ syms, b < 256) :
    (encTree syms).root.height ≤ 255 := by
  by_cases hne : encAlphabet syms = []
  · simp only [encTree, hne]
    simp [buildTree, BinaryTree.empty, Node.height]
  · have hlistne : (encAlphabet syms).map (fun l => (l.value : Int)) ≠ [] := by
      simpa using hne
    have h0 : ∀ x ∈ (encAlphabet syms).map (fun l => (l.value : Int)), 0 ≤ x := by
      intro x hx
      obtain ⟨l, _, hl⟩ := List.mem_map.mp hx
      omega
    have hsize := buildTree_size _ hlistne h0
    have hh := height_lt_size (encTree syms).root ?_
    · simp only [encTree] at hh ⊢
      rw [hsize] at hh
      have hlen : ((encAlphabet syms).map (fun l => (l.value : Int))).length ≤ 256 := by
        rw [List.length_map]
        exact encAlphabet_length_le syms h256
      omega
    · simp only [encTree]
      cases hroot : (buildTree ((encAlphabet syms).map (fun l => (l.value : Int)))).root with
      | nil =>
          exfalso
          have hsz := buildTree_size _ hlistne h0
          rw [hroot] at hsz
          have : (encAlphabet syms).length = 0 := by
            rw [Node.size] at hsz
            simp at hsz
            omega
          exact hne (List.length_eq_zero.mp this)
      | node y a b => simp

theorem encMdb_le (syms : List Nat) (h256 : ∀ b ∈ syms, b < 256) : encMdb syms ≤ 8 := by
  rw [encMdb, BitsNeeded_eq]
  have hh := encTree_height_le syms h256
  by_cases h0 : (encTree syms).root.height = 0
  · rw [h0]
    simp [Nat.log2]
  · have := (Nat.log2_lt h0).mpr (show (encTree syms).root.height < 2 ^ 8 by omega)
    omega

theorem one_le_encMdb (syms : List Nat) : 1 ≤ encMdb syms := by
  rw [encMdb, BitsNeeded_eq]
  omega

/-- Well-formedness of one emitted record: the symbol is findable with
direction list `p`, the recorded depth is `|p|` and fits in `mdb` bits,
and the recorded bit path spells `p`. -/
def GoodInst (t : BinaryTree) (mdb : Nat) (z : Nat × PathInfo) : Prop :=
  ∃ p : List Bool, t.root.findPath (z.1 : Int) = some p ∧ z.2.depth = p.length ∧
    z.2.depth < 2 ^ mdb ∧ (∀ j, (hj : j < p.length) → z.2.bit_path.testBit j = p[j]) ∧
    z.1 < 256

theorem pathInfoFor_good (syms : List Nat) (h256 : ∀ b ∈ syms, b < 256)
    (o : Occurrence) (ho : o ∈ collapseRuns syms) :
    GoodInst (encTree syms) (encMdb syms)
      (o.letter_value, pathInfoFor (encTree syms) o.letter_value) := by
  have hmemA := encAlphabet_mem syms o ho
  have hmemT : ((o.letter_value : Int)) ∈ (encAlphabet syms).map (fun l => (l.value : Int)) := by
    obtain ⟨l, hl, hv⟩ := List.mem_map.mp hmemA
    exact List.mem_map.mpr ⟨l, hl, by rw [hv]⟩
  have h0 : ∀ x ∈ (encAlphabet syms).map (fun l => (l.value : Int)), 0 ≤ x := by
    intro x hx
    obtain ⟨l, _, hl⟩ := List.mem_map.mp hx
    omega
  have hfind := buildTree_find _ (o.letter_value : Int) h0 hmemT
  rw [show buildTree ((encAlphabet syms).map (fun l => (l.value : Int))) = encTree syms
    from rfl] at hfind
  cases hp : (encTree syms).root.findPath (o.letter_value : Int) with
  | none => exact absurd hp hfind
  | some p =>
      obtain ⟨hfst, hdep, hlow, hbits, hhigh⟩ :=
        (path_info_spec (encTree syms).root (o.letter_value : Int) 0 {}).2 p hp
      have hdepth : (pathInfoFor (encTree syms) o.letter_value).depth = p.length := by
        rw [pathInfoFor, BinaryTree.path_info]
        omega
      refine ⟨p, hp, hdepth, ?_, ?_, ?_⟩
      · rw [hdepth, encMdb, BitsNeeded_eq]
        have hle := findPath_length_le_height (encTree syms).root (o.letter_value : Int) p hp
        have hlt := Nat.lt_log2_self (n := (encTree syms).root.height)
        omega
      · intro j hj
        have hb := hbits j hj
        rw [pathInfoFor, BinaryTree.path_info]
        simpa using hb
      · exact h256 o.letter_value (collapseRuns_letters syms o ho)

/-! ### Record expansion -/

def expandOccs (t : BinaryTree) (occs : List Occurrence) : List (Nat × PathInfo) :=
  joinAll (occs.map (fun o => List.replicate o.count (o.letter_value, pathInfoFor t o.letter_value)))

theorem joinAll_map {α β : Type} (f : α → β) : ∀ (ls : List (List α)),
    (joinAll ls).map f = joinAll (ls.map (List.map f)) := by
  intro ls
  induction ls with
  | nil => rfl
  | cons x xs ih => simp [joinAll, ih]

theorem mem_joinAll {α : Type} (z : α) : ∀ (ls : List (List α)),
    z ∈ joinAll ls → ∃ l ∈ ls, z ∈ l := by
  intro ls
  induction ls with
  | nil => intro h; simp [joinAll] at h
  | cons x xs ih =>
      intro h
      rw [joinAll] at h
      rcases List.mem_append.mp h with h | h
      · exact ⟨x, by simp, h⟩
      · obtain ⟨l, hl, hz⟩ := ih h
        exact ⟨l, by simp [hl], hz⟩

theorem expandOccs_cons (t : BinaryTree) (o : Occurrence) (occs : List Occurrence) :
    expandOccs t (o :: occs)
      = List.replicate o.count (o.letter_value, pathInfoFor t o.letter_value)
        ++ expandOccs t occs := by
  rw [expandOccs, List.map_cons, joinAll]
  rfl

theorem bodyBits_expand (mdb : Nat) (t : BinaryTree) : ∀ (occs : List Occurrence),
    bodyBits mdb t occs = joinAll ((expandOccs t occs).map (fun z => occBits mdb z.2)) := by
  intro occs
  induction occs with
  | nil => rfl
  | cons o occs ih =>
      rw [expandOccs_cons, List.map_append, joinAll_append, List.map_replicate]
      rw [bodyBits, List.map_cons, joinAll]
      rw [show joinAll (List.map (fun o => joinAll (List.replicate o.count
        (occBits mdb (pathInfoFor t o.letter_value)))) occs) = bodyBits mdb t occs from rfl]
      rw [ih]

theorem runsFlatten_joinAll : ∀ (occs : List Occurrence),
    runsFlatten occs = joinAll (occs.map (fun o => List.replicate o.count o.letter_value)) := by
  intro occs
  induction occs with
  | nil => rfl
  | cons o occs ih =>
      rw [runsFlatten, List.foldr_cons, List.map_cons, joinAll]
      rw [show List.foldr (fun o acc => List.replicate o.count o.letter_value ++ acc) [] occs
        = runsFlatten occs from rfl, ih]

theorem expandOccs_fst (t : BinaryTree) : ∀ (occs : List Occurrence),
    (expandOccs t occs).map (fun z => z.1) = runsFlatten occs := by
  intro occs
  induction occs with
  | nil => rfl
  | cons o occs ih =>
      rw [expandOccs_cons, List.map_append, List.map_replicate, ih]
      rw [show runsFlatten (o :: occs)
        = List.replicate o.count o.letter_value ++ runsFlatten occs from rfl]

theorem expandOccs_good (syms : List Nat) (h256 : ∀ b ∈ syms, b < 256) :
    ∀ z ∈ expandOccs (encTree syms) (collapseRuns syms),
      GoodInst (encTree syms) (encMdb syms) z := by
  intro z hz
  obtain ⟨l, hl, hzl⟩ := mem_joinAll z _ hz
  obtain ⟨o, ho, hlo⟩ := List.mem_map.mp hl
  rw [← hlo] at hzl
  have hz2 := List.eq_of_mem_replicate hzl
  rw [hz2]
  exact pathInfoFor_good syms h256 o ho

theorem length_le_joinAll_length (mdb : Nat) (hmdb : 1 ≤ mdb) :
    ∀ (insts : List (Nat × PathInfo)),
      insts.length ≤ (joinAll (insts.map (fun z => occBits mdb z.2))).length := by
  intro insts
  induction insts with
  | nil => simp [joinAll]
  | cons z insts ih =>
      rw [List.map_cons, joinAll]
      simp only [List.length_append, List.length_cons]
      have hocc : 1 ≤ (occBits mdb z.2).length := by
        rw [occBits]
        simp only [List.length_append, List.length_map, List.length_range]
        omega
      omega

/-! ### Decode loop -/

theorem occBits_length (mdb : Nat) (pi : PathInfo) :
    (occBits mdb pi).length = mdb + pi.depth := by
  simp [occBits]

theorem occBits_getD_low (mdb : Nat) (pi : PathInfo) (i : Nat) (h : i < mdb) :
    (occBits mdb pi).getD i false = pi.depth.testBit i := by
  rw [occBits, List.getD_append _ _ false i (by simp [h])]
  rw [List.getD_eq_getElem _ false (by simp [h])]
  simp

theorem occBits_getD_high (mdb : Nat) (pi : PathInfo) (i : Nat) (h : i < pi.depth) :
    (occBits mdb pi).getD (mdb + i) false = pi.bit_path.testBit i := by
  rw [occBits, List.getD_append_right _ _ false (mdb + i) (by simp)]
  simp only [List.length_map, List.length_range]
  rw [show mdb + i - mdb = i from by omega]
  rw [List.getD_eq_getElem _ false (by simp [h])]
  simp

theorem decodeLoop_step (data : List Nat) (mdb : Nat) (t : BinaryTree) (written fuel : Nat)
    (s : ReaderState) (acc : List Occurrence) (h : s.bits_read < written) :
    decodeLoop data mdb t written (fuel + 1) s acc
      = decodeLoop data mdb t written fuel
          (readPathBits data (readDepth data mdb s).1 (readDepth data mdb s).2).2
          (acc ++ [⟨intToByte (t.find_value
            ⟨(readPathBits data (readDepth data mdb s).1 (readDepth data mdb s).2).1,
              (readDepth data mdb s).1⟩), 1⟩]) := by
  rw [decodeLoop, if_pos h]

theorem decodeLoop_stop (data : List Nat) (mdb : Nat) (t : BinaryTree) (written fuel : Nat)
    (s : ReaderState) (acc : List Occurrence) (h : ¬ s.bits_read < written) :
    decodeLoop data mdb t written (fuel + 1) s acc = (acc, s) := by
  rw [decodeLoop, if_neg h]

theorem decodeLoop_spec (data : List Nat) (mdb : Nat) (t : BinaryTree) (L start : Nat)
    (hmdb : 1 ≤ mdb) :
    ∀ (insts : List (Nat × PathInfo)) (k fuel : Nat) (acc : List Occurrence),
    (∀ z ∈ insts, GoodInst t mdb z) →
    k + (joinAll (insts.map (fun z => occBits mdb z.2))).length = L →
    insts.length ≤ fuel →
    (∀ j, j < (joinAll (insts.map (fun z => occBits mdb z.2))).length →
      bitAt data start (k + j) = (joinAll (insts.map (fun z => occBits mdb z.2))).getD j false) →
    decodeLoop data mdb t L fuel (posState start k) acc
      = (acc ++ insts.map (fun z => (⟨z.1, 1⟩ : Occurrence)), posState start L) := by
  intro insts
  induction insts with
  | nil =>
      intro k fuel acc _ hlen _ _
      simp only [List.map_nil, joinAll, List.length_nil, Nat.add_zero] at hlen
      subst hlen
      cases fuel with
      | zero => simp [decodeLoop]
      | succ f =>
          rw [decodeLoop_stop data mdb t k f (posState start k) acc (by
            show ¬ k < k
            omega)]
          simp
  | cons z insts ih =>
      intro k fuel acc hgood hlen hfuel hbits
      obtain ⟨p, hp, hdep, hfit, hpbits, hs256⟩ := hgood z (by simp)
      have hflatlen : (joinAll ((z :: insts).map (fun w => occBits mdb w.2))).length
          = (mdb + z.2.depth) + (joinAll (insts.map (fun w => occBits mdb w.2))).length := by
        rw [List.map_cons, joinAll, List.length_append, occBits_length]
      have hocclen : (occBits mdb z.2).length = mdb + z.2.depth := occBits_length mdb z.2
      have hflatgetD : ∀ j, j < mdb + z.2.depth →
          (joinAll ((z :: insts).map (fun w => occBits mdb w.2))).getD j false
            = (occBits mdb z.2).getD j false := by
        intro j hj
        rw [List.map_cons, joinAll, List.getD_append _ _ false j (by omega)]
      have hkL : k < L := by omega
      cases fuel with
      | zero => simp at hfuel
      | succ f =>
          rw [decodeLoop_step data mdb t L f (posState start k) acc (by
            show k < L
            exact hkL)]
          rw [readDepth_spec data start mdb k]
          have hdval : depthAcc data start k mdb = z.2.depth := by
            refine depthAcc_eq data start k mdb z.2.depth hfit ?_
            intro i hi
            rw [hbits i (by omega), hflatgetD i (by omega), occBits_getD_low mdb z.2 i hi]
          simp only [hdval]
          rw [readPathBits_spec data start z.2.depth (k + mdb)]
          simp only []
          have hletter : intToByte (t.find_value
              ⟨pathAcc data start (k + mdb) z.2.depth, z.2.depth⟩) = z.1 := by
            have hwalk : (t.root.walkPath (pathAcc data start (k + mdb) p.length) 0
                p.length).valueOf = (z.1 : Int) := by
              refine walkPath_findPath p t.root (z.1 : Int)
                (pathAcc data start (k + mdb) p.length) 0 hp ?_
              intro j hj
              rw [Nat.zero_add]
              rw [testBit_pathAcc data start (k + mdb) p.length j hj]
              rw [show k + mdb + j = k + (mdb + j) from by omega]
              rw [hbits (mdb + j) (by omega), hflatgetD (mdb + j) (by omega),
                occBits_getD_high mdb z.2 j (by omega)]
              rw [hpbits j hj]
            rw [BinaryTree.find_value]
            show intToByte (t.root.walkPath (pathAcc data start (k + mdb) z.2.depth) 0
              z.2.depth).valueOf = z.1
            rw [hdep, hwalk]
            simp only [intToByte]
            omega
          rw [hletter]
          have hstate : posState start (k + mdb + z.2.depth)
              = posState start (k + (mdb + z.2.depth)) := by
            rw [show k + mdb + z.2.depth = k + (mdb + z.2.depth) from by omega]
          rw [hstate]
          have hshift : ∀ j, j < (joinAll (insts.map (fun w => occBits mdb w.2))).length →
              bitAt data start (k + (mdb + z.2.depth) + j)
                = (joinAll (insts.map (fun w => occBits mdb w.2))).getD j false := by
            intro j hj
            rw [show k + (mdb + z.2.depth) + j = k + (mdb + z.2.depth + j) from by omega]
            rw [hbits (mdb + z.2.depth + j) (by omega)]
            rw [List.map_cons, joinAll, List.getD_append_right _ _ false _ (by omega), hocclen]
            rw [show mdb + z.2.depth + j - (mdb + z.2.depth) = j from by omega]
          have hih := ih (k + (mdb + z.2.depth)) f (acc ++ [(⟨z.1, 1⟩ : Occurrence)])
            (fun w hw => hgood w (by simp [hw])) (by omega)
            (by simp only [List.length_cons] at hfuel; omega) hshift
          rw [hih]
          simp

/-! ### Parsing the encoded header back -/

theorem sizeByte_eq (len : Nat) (h1 : 1 ≤ len) (h2 : len ≤ 256) : sizeByte len = len - 1 := by
  rw [sizeByte]
  have hp : (2 : Nat) ^ 64 = 18446744073709551616 := by norm_num
  rw [hp]
  omega

theorem encodeSymbols_cons (syms : List Nat) :
    encodeSymbols syms
      = (encMdb syms % 256) :: sizeByte (encAlphabet syms).length
        :: ((encAlphabet syms).map (fun l => l.value % 256)
          ++ (flushedOut (writeBits ⟨[], 0, 0, 0⟩ (encBits syms))
            ++ toLE4 (writeBits ⟨[], 0, 0, 0⟩ (encBits syms)).written_bits)) := by
  rw [encodeSymbols_eq]
  simp [List.append_assoc]

theorem encodeSymbols_getD0 (B : List Nat) (h256 : ∀ b ∈ B, b < 256) :
    (encodeSymbols B).getD 0 0 = encMdb B := by
  rw [encodeSymbols_cons, List.getD_cons_zero]
  have := encMdb_le B h256
  omega

theorem encodeSymbols_getD1 (B : List Nat) (h256 : ∀ b ∈ B, b < 256) (hne : B ≠ []) :
    (encodeSymbols B).getD 1 0 = (encAlphabet B).length - 1 := by
  have hlen1 : 1 ≤ (encAlphabet B).length := by
    have h := encAlphabet_ne_nil B hne
    cases hc : encAlphabet B with
    | nil => exact absurd hc h
    | cons a as => simp [hc]
  rw [encodeSymbols_cons, List.getD_cons_succ, List.getD_cons_zero]
  exact sizeByte_eq _ hlen1 (encAlphabet_length_le B h256)

theorem encodeSymbols_alphabet_readback (B : List Nat) (h256 : ∀ b ∈ B, b < 256) :
    (List.range (encAlphabet B).length).map (fun i => (encodeSymbols B).getD (2 + i) 0)
      = (encAlphabet B).map (fun l => l.value) := by
  have hval : ∀ l ∈ encAlphabet B, l.value < 256 := by
    intro l hl
    exact h256 l.value (encAlphabet_sub B l.value (List.mem_map.mpr ⟨l, hl, rfl⟩))
  refine List.ext_getElem (by simp) ?_
  intro i h1 h2
  simp only [List.length_map, List.length_range] at h1
  rw [List.getElem_map, List.getElem_range, List.getElem_map]
  rw [encodeSymbols_cons]
  rw [show 2 + i = i + 1 + 1 from by omega]
  rw [List.getD_cons_succ, List.getD_cons_succ]
  rw [List.getD_append _ _ 0 i (by simp [h1])]
  rw [List.getD_eq_getElem _ 0 (by simp [h1]), List.getElem_map]
  refine Nat.mod_eq_of_lt (hval _ ?_)
  exact List.getElem_mem h1

theorem encode_written_bits (B : List Nat) :
    (writeBits ⟨[], 0, 0, 0⟩ (encBits B)).written_bits = (encBits B).length := by
  have h := writeBits_rep (encBits B) [] ⟨[], 0, 0, 0⟩ writerRep_init
  rw [List.nil_append] at h
  exact h.2.2.1

theorem encode_trailing (B : List Nat) :
    trailingCounter (encodeSymbols B) = (encBits B).length % 2 ^ 32 := by
  rw [encodeSymbols_eq, trailingCounter_append, encode_written_bits]

theorem encode_bitAt (B : List Nat) (j : Nat) (hj : j < (encBits B).length) :
    bitAt (encodeSymbols B) (2 + (encAlphabet B).length) j = (encBits B).getD j false := by
  have hrep := writeBits_rep (encBits B) [] ⟨[], 0, 0, 0⟩ writerRep_init
  rw [List.nil_append] at hrep
  obtain ⟨hflen, hwb, hfbits⟩ := flushedOut_spec (encBits B) _ hrep
  rw [bitAt, encodeSymbols_cons]
  rw [show 2 + (encAlphabet B).length + j / 8
    = (encAlphabet B).length + j / 8 + 1 + 1 from by omega]
  rw [List.getD_cons_succ, List.getD_cons_succ]
  rw [List.getD_append_right _ _ 0 _ (by simp)]
  rw [List.length_map]
  rw [show (encAlphabet B).length + j / 8 - (encAlphabet B).length = j / 8 from by omega]
  rw [List.getD_append _ _ 0 (j / 8) (by rw [hflen]; omega)]
  exact hfbits j hj

/-- Decoding an encoded buffer: the bit loop reproduces exactly the
expanded occurrence list of the encoder and stops with its bit counter at
the transmitted total. -/
theorem decodeLoopOf_encode (B : List Nat) (hne : B ≠ []) (h256 : ∀ b ∈ B, b < 256)
    (hfit : (encBits B).length < 2 ^ 32) :
    decodeLoopOf (encodeSymbols B) (encodeSymbols B).length
      = ((expandOccs (encTree B) (collapseRuns B)).map (fun z => (⟨z.1, 1⟩ : Occurrence)),
        posState (2 + (encAlphabet B).length) (encBits B).length) := by
  have hlen1 : 1 ≤ (encAlphabet B).length := by
    have h := encAlphabet_ne_nil B hne
    cases hc : encAlphabet B with
    | nil => exact absurd hc h
    | cons a as => simp [hc]
  have hwrit : trailingCounter (encodeSymbols B) = (encBits B).length := by
    rw [encode_trailing B]
    exact Nat.mod_eq_of_lt hfit
  simp only [trailingCounter] at hwrit
  have heqflat : encBits B = joinAll ((expandOccs (encTree B) (collapseRuns B)).map
      (fun z => occBits (encMdb B) z.2)) := by
    rw [encBits]
    exact bodyBits_expand (encMdb B) (encTree B) (collapseRuns B)
  simp only [decodeLoopOf]
  rw [encodeSymbols_getD0 B h256, encodeSymbols_getD1 B h256 hne]
  rw [show (encAlphabet B).length - 1 + 1 = (encAlphabet B).length from by omega]
  rw [encodeSymbols_alphabet_readback B h256]
  rw [hwrit]
  rw [List.map_map]
  rw [show buildTree ((encAlphabet B).map ((fun v : Nat => (v : Int)) ∘ (fun l => l.value)))
    = encTree B from rfl]
  rw [show (⟨2 + (encAlphabet B).length, 0, 0⟩ : ReaderState)
    = posState (2 + (encAlphabet B).length) 0 from rfl]
  have hspec := decodeLoop_spec (encodeSymbols B) (encMdb B) (encTree B) (encBits B).length
    (2 + (encAlphabet B).length) (one_le_encMdb B)
    (expandOccs (encTree B) (collapseRuns B)) 0 (encBits B).length []
    (expandOccs_good B h256)
    (by rw [← heqflat]; omega)
    (by
      have h := length_le_joinAll_length (encMdb B) (one_le_encMdb B)
        (expandOccs (encTree B) (collapseRuns B))
      rw [← heqflat] at h
      exact h)
    (by
      intro j hj
      rw [← heqflat] at hj ⊢
      rw [Nat.zero_add]
      exact encode_bitAt B j hj)
  rw [hspec]
  simp

/-- C1 (amended): decoding inverts encoding on every non-empty byte buffer
whose length is a multiple of the symbol width (trivially so at the
1-byte width) and whose packed path bitstream holds fewer than `2 ^ 32`
bits, so that the trailing `uint32_t` counter does not wrap. -/
theorem decode_encode_roundtrip (B : List Nat) (hne : B ≠ []) (h256 : ∀ b ∈ B, b < 256)
    (hfit : (encBits B).length < 2 ^ 32) :
    decodeBytes (encodeBytes B) = B := by
  rw [decodeBytes, encodeBytes, decodeSized]
  rw [decodeLoopOf_encode B hne h256 hfit]
  rw [List.map_map]
  rw [show (expandOccs (encTree B) (collapseRuns B)).map
    ((fun o => o.letter_value) ∘ (fun z => (⟨z.1, 1⟩ : Occurrence)))
    = (expandOccs (encTree B) (collapseRuns B)).map (fun z => z.1) from rfl]
  rw [expandOccs_fst]
  exact collapseRuns_flatten B

/-- Witness for C1 on the spec's own example buffer `[65, 65, 65, 66]`. -/
theorem decode_encode_roundtrip_witness :
    decodeBytes (encodeBytes [65, 65, 65, 66]) = [65, 65, 65, 66] :=
  decode_encode_roundtrip [65, 65, 65, 66] (by decide) (by decide) (by decide)

/-- C2 (amended): the trailing 32-bit little-endian counter equals the
number of path bits written reduced modulo `2 ^ 32` — hence exactly that
number whenever it fits in 32 bits — and on such buffers the decoder's
bit loop stops with its running bit count exactly at the counter, never
touching the padding bits of the final partial byte. -/
theorem counter_and_exact_stop (B : List Nat) (h256 : ∀ b ∈ B, b < 256) :
    trailingCounter (encodeBytes B) = (encBits B).length % 2 ^ 32 ∧
    (B ≠ [] → (encBits B).length < 2 ^ 32 →
      trailingCounter (encodeBytes B) = (encBits B).length ∧
      (decodeLoopOf (encodeBytes B) (encodeBytes B).length).2.bits_read
        = trailingCounter (encodeBytes B)) := by
  refine ⟨encode_trailing B, fun hne hfit => ?_⟩
  have h1 : trailingCounter (encodeBytes B) = (encBits B).length := by
    rw [encodeBytes, encode_trailing B]
    exact Nat.mod_eq_of_lt hfit
  refine ⟨h1, ?_⟩
  rw [encodeBytes, decodeLoopOf_encode B hne h256 hfit]
  rw [show trailingCounter (encodeSymbols B) = (encBits B).length from h1]
  rfl

/-- Witness for C2 at the buffer `[65, 66]`. -/
theorem counter_and_exact_stop_witness :
    trailingCounter (encodeBytes [65, 66]) = (encBits [65, 66]).length % 2 ^ 32 ∧
    (([65, 66] : List Nat) ≠ [] → (encBits [65, 66]).length < 2 ^ 32 →
      trailingCounter (encodeBytes [65, 66]) = (encBits [65, 66]).length ∧
      (decodeLoopOf (encodeBytes [65, 66]) (encodeBytes [65, 66]).length).2.bits_read
        = trailingCounter (encodeBytes [65, 66])) :=
  counter_and_exact_stop [65, 66] (by decide)

/-- C7: the `max_depth_bits` byte at offset 0 of the header satisfies
`2 ^ max_depth_bits - 1 ≥ height`, and every depth value occurring in the
path bitstream (the direction-list length of an encoded symbol) is at
most the height, hence fits in the declared bit width. -/
theorem depth_width_consistent (B : List Nat) (h256 : ∀ b ∈ B, b < 256) :
    (encodeBytes B).getD 0 0 = BitsNeeded (encTree B).root.height ∧
    (encTree B).root.height ≤ 2 ^ (encodeBytes B).getD 0 0 - 1 ∧
    (∀ o ∈ collapseRuns B, ∀ p, (encTree B).root.findPath (o.letter_value : Int) = some p →
      p.length ≤ (encTree B).root.height ∧ p.length < 2 ^ (encodeBytes B).getD 0 0) := by
  have h0 : (encodeBytes B).getD 0 0 = encMdb B := encodeSymbols_getD0 B h256
  refine ⟨by rw [h0]; rfl, ?_, ?_⟩
  · rw [h0, encMdb, BitsNeeded_eq]
    have := Nat.lt_log2_self (n := (encTree B).root.height)
    omega
  · intro o ho p hp
    have hle := findPath_length_le_height (encTree B).root _ p hp
    refine ⟨hle, ?_⟩
    rw [h0, encMdb, BitsNeeded_eq]
    have := Nat.lt_log2_self (n := (encTree B).root.height)
    omega

/-- Witness for C7 at the buffer `[65, 65, 66]`. -/
theorem depth_width_consistent_witness :
    (encodeBytes [65, 65, 66]).getD 0 0 = BitsNeeded (encTree [65, 65, 66]).root.height ∧
    (encTree [65, 65, 66]).root.height ≤ 2 ^ (encodeBytes [65, 65, 66]).getD 0 0 - 1 ∧
    (∀ o ∈ collapseRuns [65, 65, 66], ∀ p,
      (encTree [65, 65, 66]).root.findPath (o.letter_value : Int) = some p →
      p.length ≤ (encTree [65, 65, 66]).root.height ∧
      p.length < 2 ^ (encodeBytes [65, 65, 66]).getD 0 0) :=
  depth_width_consistent [65, 65, 66] (by decide)

/-- C10: on empty input `encode` produces a well-defined buffer: the
alphabet-size-minus-one byte is 255 (`0 - 1` wrapped to a byte), there
are no alphabet entries and no path bits, and the trailing 32-bit counter
is zero.  (Byte 0 holds `BitsNeeded` of the empty tree's height.) -/
theorem encode_empty_input :
    encodeBytes [] = [BitsNeeded 0, 255, 0, 0, 0, 0] ∧
    (encodeBytes []).getD 1 0 = 255 ∧
    encAlphabet [] = [] ∧
    encBits [] = [] ∧
    trailingCounter (encodeBytes []) = 0 := by
  refine ⟨by decide, by decide, by decide, by decide, by decide⟩

/-- C9 is wrong of the code: for the 2-byte symbol width the encoder
serialises each alphabet entry with `result.push_back(letter.value)`,
which truncates the symbol to its low byte, so the alphabet field
occupies `alphabet_size × 1` bytes instead of the claimed
`alphabet_size × sizeof(symbol)`.  On input bytes `[0x02, 0x01]` (the
single 2-byte symbol 0x0102) the whole buffer is 8 bytes — header (2),
one truncated entry byte `0x02` (where the claim requires the two bytes
`0x02 0x01`), one bitstream byte and the 4-byte counter. -/
theorem alphabet_entry_width_bug :
    bytesToSymbols 2 [2, 1] = [258] ∧
    encodeWidth 2 [2, 1] = [1, 0, 2, 0, 1, 0, 0, 0] ∧
    (encodeWidth 2 [2, 1]).length = 2 + 1 * 1 + 1 + 4 ∧
    ¬ (encodeWidth 2 [2, 1]).length = 2 + 1 * 2 + 1 + 4 := by
  refine ⟨by decide, by decide, by decide, by decide⟩

/-! ### The 32-bit counter wrap at `2 ^ 32` path bits

The bit counter `written_bits` is a `uint32_t`, so a stream of exactly
`2 ^ 32` path bits serialises a trailing counter of `0` and the decoder
reproduces the empty output.  The input `List.replicate (2 ^ 32) 65`
realises this: one letter, one-node tree, depth 0, so each of the
`2 ^ 32` symbols costs exactly `max_depth_bits = 1` path bit. -/

theorem decodeSized_written_zero (data : List Nat) (size : Nat)
    (h : data.getD (size - 4) 0 + 256 * data.getD (size - 3) 0
      + 65536 * data.getD (size - 2) 0 + 16777216 * data.getD (size - 1) 0 = 0) :
    decodeSized data size = [] := by
  simp only [decodeSized, decodeLoopOf, h]
  rfl

theorem collapseRuns_replicate (v L : Nat) (hL : 1 ≤ L) :
    collapseRuns (List.replicate L v) = minimalRuns v L := by
  obtain ⟨m, rfl⟩ : ∃ m, L = m + 1 := ⟨L - 1, by omega⟩
  rw [List.replicate_succ, collapseRuns]
  have h := collapseAux_replicate m v 1 [] (by omega) (by omega)
    (by intro y hy; simp at hy)
  simp only [List.append_nil, show collapseRuns [] = [] from rfl] at h
  rw [h, show 1 + m = m + 1 from by omega]

theorem foldl_addOccurrence_single (v : Nat) : ∀ (os : List Occurrence) (c : Nat),
    (∀ o ∈ os, o.letter_value = v) →
    os.foldl addOccurrence [⟨v, c⟩] = [⟨v, c + sumCounts os⟩] := by
  intro os
  induction os with
  | nil =>
      intro c _
      simp [sumCounts]
  | cons o os ih =>
      intro c hall
      have hv : o.letter_value = v := hall o (by simp)
      rw [List.foldl_cons]
      have hstep : addOccurrence [⟨v, c⟩] o = [⟨v, c + o.count⟩] := by
        rw [addOccurrence, if_pos]
        rw [hv]
      rw [hstep, ih (c + o.count) (fun o2 h2 => hall o2 (by simp [h2]))]
      have hsum : sumCounts (o :: os) = o.count + sumCounts os := by
        simp [sumCounts]
      rw [hsum, show c + o.count + sumCounts os = c + (o.count + sumCounts os) from by omega]

theorem buildAlphabet_single (v : Nat) (os : List Occurrence) (hne : os ≠ [])
    (hall : ∀ o ∈ os, o.letter_value = v) :
    buildAlphabet os = [⟨v, sumCounts os⟩] := by
  cases os with
  | nil => exact absurd rfl hne
  | cons o os' =>
      rw [buildAlphabet, List.foldl_cons]
      have hv : o.letter_value = v := hall o (by simp)
      rw [show addOccurrence [] o = [⟨o.letter_value, o.count⟩] from rfl]
      rw [show (⟨o.letter_value, o.count⟩ : Letter) = ⟨v, o.count⟩ from by rw [hv]]
      rw [foldl_addOccurrence_single v os' o.count (fun o2 h2 => hall o2 (by simp [h2]))]
      have hsum : sumCounts (o :: os') = o.count + sumCounts os' := by
        simp [sumCounts]
      rw [hsum]

theorem repl_alphabet :
    encAlphabet (List.replicate (2 ^ 32) 65) = [⟨65, 2 ^ 32⟩] := by
  rw [encAlphabet, collapseRuns_replicate 65 (2 ^ 32) (by norm_num)]
  obtain ⟨hsum, hlen, hmem⟩ := minimalRuns_spec 65 (2 ^ 32) (by norm_num)
  have hne : minimalRuns 65 (2 ^ 32) ≠ [] := by
    intro h0
    rw [h0] at hlen
    simp at hlen
  rw [buildAlphabet_single 65 _ hne (fun o ho => (hmem o ho).1), hsum]
  rfl

theorem repl_tree :
    encTree (List.replicate (2 ^ 32) 65) = ⟨Node.node 65 Node.nil Node.nil⟩ := by
  rw [encTree, repl_alphabet]
  decide

theorem repl_mdb : encMdb (List.replicate (2 ^ 32) 65) = 1 := by
  rw [encMdb, repl_tree]
  decide

theorem repl_pathinfo :
    pathInfoFor (encTree (List.replicate (2 ^ 32) 65)) 65 = ⟨0, 0⟩ := by
  rw [repl_tree]
  decide

theorem joinAll_replicate_length {α : Type} (c : Nat) (bs : List α) :
    (joinAll (List.replicate c bs)).length = c * bs.length := by
  induction c with
  | zero => simp [joinAll]
  | succ n ih =>
      rw [List.replicate_succ]
      rw [show joinAll (bs :: List.replicate n bs)
        = bs ++ joinAll (List.replicate n bs) from rfl]
      rw [List.length_append, ih, Nat.succ_mul]
      omega

theorem bodyBits_const_letter (mdb : Nat) (t : BinaryTree) (v : Nat) :
    ∀ (occs : List Occurrence), (∀ o ∈ occs, o.letter_value = v) →
    (bodyBits mdb t occs).length
      = sumCounts occs * (mdb + (pathInfoFor t v).depth) := by
  intro occs
  induction occs with
  | nil =>
      intro _
      simp [bodyBits, joinAll, sumCounts]
  | cons o os ih =>
      intro hall
      have hv : o.letter_value = v := hall o (by simp)
      have hcons : bodyBits mdb t (o :: os)
          = joinAll (List.replicate o.count (occBits mdb (pathInfoFor t o.letter_value)))
            ++ bodyBits mdb t os := rfl
      rw [hcons, hv, List.length_append, joinAll_replicate_length, occBits_length]
      rw [ih (fun o2 h2 => hall o2 (by simp [h2]))]
      have hsum : sumCounts (o :: os) = o.count + sumCounts os := by
        simp [sumCounts]
      rw [hsum, Nat.add_mul]

theorem repl_encBits_length :
    (encBits (List.replicate (2 ^ 32) 65)).length = 2 ^ 32 := by
  rw [encBits, repl_mdb, collapseRuns_replicate 65 (2 ^ 32) (by norm_num)]
  obtain ⟨hsum, hlen, hmem⟩ := minimalRuns_spec 65 (2 ^ 32) (by norm_num)
  rw [bodyBits_const_letter 1 (encTree (List.replicate (2 ^ 32) 65)) 65 _
    (fun o ho => (hmem o ho).1)]
  rw [repl_pathinfo, hsum]
  simp

theorem repl_trailing :
    trailingCounter (encodeBytes (List.replicate (2 ^ 32) 65)) = 0 := by
  rw [encodeBytes, encode_trailing, repl_encBits_length]
  norm_num

theorem repl_decode :
    decodeBytes (encodeBytes (List.replicate (2 ^ 32) 65)) = [] := by
  rw [decodeBytes]
  apply decodeSized_written_zero
  have h := repl_trailing
  rw [encodeBytes] at h ⊢
  rw [trailingCounter] at h
  exact h

/-- C1 counterexample: for the 4 GiB single-letter input
`List.replicate (2 ^ 32) 65` — nonempty, all bytes below 256 — the bit
counter wraps the `uint32_t` to `0`, the decoder therefore reads no bits,
and `decode (encode x)` is `[]` rather than `x`: the claimed
unconditional round-trip fails. -/
theorem roundtrip_wraps_at_4gib :
    List.replicate (2 ^ 32) (65 : Nat) ≠ [] ∧
    (∀ b ∈ List.replicate (2 ^ 32) (65 : Nat), b < 256) ∧
    decodeBytes (encodeBytes (List.replicate (2 ^ 32) 65)) = [] ∧
    decodeBytes (encodeBytes (List.replicate (2 ^ 32) 65))
      ≠ List.replicate (2 ^ 32) 65 := by
  refine ⟨?_, ?_, repl_decode, ?_⟩
  · intro h
    have h2 := congrArg List.length h
    rw [List.length_replicate, List.length_nil] at h2
    exact absurd h2 (by norm_num)
  · intro b hb
    rw [List.eq_of_mem_replicate hb]
    norm_num
  · rw [repl_decode]
    intro h
    have h2 := congrArg List.length h
    rw [List.length_replicate, List.length_nil] at h2
    exact absurd h2 (by norm_num)

/-- C2 counterexample: on `List.replicate (2 ^ 32) 65` the encoder emits
exactly `2 ^ 32` path bits, but the serialised 32-bit counter is `0`, not
the number of path bits: the claimed equality fails once the count
reaches `2 ^ 32`. -/
theorem counter_wraps_at_4gib :
    (encBits (List.replicate (2 ^ 32) 65)).length = 2 ^ 32 ∧
    trailingCounter (encodeBytes (List.replicate (2 ^ 32) 65)) = 0 ∧
    trailingCounter (encodeBytes (List.replicate (2 ^ 32) 65))
      ≠ (encBits (List.replicate (2 ^ 32) 65)).length := by
  refine ⟨repl_encBits_length, repl_trailing, ?_⟩
  rw [repl_trailing, repl_encBits_length]
  norm_num

example : buildTree [65, 66] = ⟨.node 65 (.node 66 .nil .nil) .nil⟩ := by decide

example : (buildTree [65, 66, 67, 68]).path_info 68 {} =
    (true, { bit_path := 0, depth := 2 }) := by decide

example : (buildTree [65, 66, 67, 68]).find_value { bit_path := 0, depth := 2 } = 68 := by
  decide

example : collapseRuns [65, 65, 65, 66] = [⟨65, 3⟩, ⟨66, 1⟩] := by decide

example : sortLetters (buildAlphabet (collapseRuns [65, 65, 65, 66])) =
    [⟨65, 3⟩, ⟨66, 1⟩] := by decide

example : decodeBytes (encodeBytes [65, 65, 65, 66]) = [65, 65, 65, 66] := by decide

example : decodeBytes (encodeBytes [7, 7, 2, 9, 9, 9, 2, 1, 7]) =
    [7, 7, 2, 9, 9, 9, 2, 1, 7] := by decide

example : encodeBytes [] = [1, 255, 0, 0, 0, 0] := by decide

end XKC

